import Mathlib

/-!
Buildpipe pipeline expansion (`pipeline.go`)

A shallow embedding of `generateProjectSteps`, `stringReplaceProjectLabel`,
`isProjectScopeStep`, `findStepByKey` and `generatePipeline`, and theorems about them.

Conventions of the embedding.

* A decoded YAML value (`interface{}`) is a `Value`; a `map[interface{}]interface{}` is an
  association list `Fields`, read and written by string key (the source indexes maps with
  string keys only).  The first entry with a given key is the binding of that key.
* Go maps and slices are references.  The embedding passes values explicitly: a write
  through a reference is a new value put back where the reference points.  In
  `generatePipeline` the step list itself is updated in place, so the loop carries the
  current contents of the list.
* A failed unchecked type assertion panics, and so does `deepcopy.Copy` on a map with a
  nil or NaN key; functions that can panic return `Option`, with `none` for the panic.
* Strings are sequences of Unicode characters, as the valid UTF-8 that YAML carries.  Two
  tables of the Go runtime are taken as parameters (`GoRuntime`): the lower-case mapping
  of runes above ASCII, and the `%s` rendering of operands that are not strings.
-/

namespace Buildpipe

/-! ## Data model -/

/-- A decoded YAML value, as `yaml.v2` stores it in an `interface{}`.  A `float` carries
the IEEE 754 binary64 bit pattern of the number. -/
inductive Value where
  | null
  | bool (b : Bool)
  | int (n : Int)
  | float (bits : Nat)
  | str (s : String)
  | list (xs : List Value)
  | map (kvs : List (Value × Value))

/-- The entries of a `map[interface{}]interface{}`. -/
abbrev Fields := List (Value × Value)

/-- Whether a map key is the string `name`. -/
def keyIs (name : String) : Value → Bool
  | .str s => decide (s = name)
  | _ => false

/-- The comma-ok map read `v, ok := m[name]`. -/
def mapGet? : Fields → String → Option Value
  | [], _ => none
  | (k, v) :: rest, name => if keyIs name k then some v else mapGet? rest name

/-- The plain map read `m[name]`: the nil interface when the key is absent. -/
def mapIndex (m : Fields) (name : String) : Value :=
  (mapGet? m name).getD Value.null

/-- The map write `m[name] = v`. -/
def mapSet : Fields → String → Value → Fields
  | [], name, v => [(Value.str name, v)]
  | (k, w) :: rest, name, v =>
    if keyIs name k then (k, v) :: rest else (k, w) :: mapSet rest name v

/-- A Go `map[string]string`: its entries, no two with the same name. -/
structure StrMap where
  entries : List (String × String)
  nodup : (entries.map Prod.fst).Nodup

/-- The map read `v, ok := m[name]` on a `map[string]string`. -/
def StrMap.get? (m : StrMap) (name : String) : Option String :=
  (m.entries.find? (fun kv => decide (kv.1 = name))).map Prod.snd

/-- The loop `for name, value := range m { env[name] = value }`. -/
def rangeAssign (m : StrMap) (env : Fields) : Fields :=
  m.entries.foldl (fun e kv => mapSet e kv.1 (Value.str kv.2)) env

/-- Modelled from the spec: the `Project` type is declared outside `pipeline.go`.  It has a
`Label`, an `Env` mapping, a main path (the result of `getMainPath()`) and an inclusion
predicate `checkProjectRules` on a step record. -/
structure Project where
  Label : String
  Env : StrMap
  mainPath : String
  checkProjectRules : Fields → Bool

/-- The parts of the Go standard library whose tables are not reproduced here:
`lowerTable` is `unicode.ToLower` on runes above `unicode.MaxASCII`, and `formatS` is how
`fmt` renders an operand that is not a string under the verb `%s`. -/
structure GoRuntime where
  lowerTable : Char → Char
  formatS : Value → String

/-- The result type of `generatePipeline`. -/
structure Pipeline where
  Steps : List Value

/-! ## Library functions -/

/-- The rendering of one operand by `fmt.Sprintf` under `%s`. -/
def sprintS (rt : GoRuntime) : Value → String
  | .str s => s
  | v => rt.formatS v

/-- The function `unicode.ToLower`. -/
def toLowerRune (rt : GoRuntime) (c : Char) : Char :=
  if c.val < 128 then c.toLower else rt.lowerTable c

/-- The function `strings.ToLower`. -/
def ToLower (rt : GoRuntime) (s : String) : String :=
  String.mk (s.data.map (toLowerRune rt))

/-- The scan of `strings.ReplaceAll` for a non-empty `old`: `skip` counts the characters
of the current match still to be passed over. -/
def replaceScan (old new : List Char) : Nat → List Char → List Char
  | _, [] => []
  | skip + 1, _ :: cs => replaceScan old new skip cs
  | 0, c :: cs =>
    if old.isPrefixOf (c :: cs) then new ++ replaceScan old new (old.length - 1) cs
    else c :: replaceScan old new 0 cs

/-- The function `strings.ReplaceAll`: non-overlapping matches of `old`, leftmost first; an
empty `old` matches before every character and at the end. -/
def ReplaceAll (s old new : String) : String :=
  if old.data = [] then String.mk (new.data ++ s.data.flatMap (fun c => c :: new.data))
  else String.mk (replaceScan old.data new.data 0 s.data)

/-- Whether a binary64 bit pattern is a NaN. -/
def isNaN (bits : Nat) : Bool :=
  decide ((bits / 2 ^ 52) % 2 ^ 11 = 2047) && decide (bits % 2 ^ 52 ≠ 0)

/-- The map keys on which `deepcopy.Copy` panics.  For a nil key the copy of the key is
nil and `SetMapIndex` is called on the zero `reflect.Value`; for a NaN key `MapIndex` does
not find the entry and `Type` is called on the zero `reflect.Value`. -/
def uncopyableKey : Value → Bool
  | .null => true
  | .float bits => isNaN bits
  | _ => false

mutual
/-- The function `deepcopy.Copy`: it rebuilds slices element by element and maps entry by
entry, and hands back scalars as they are; `none` is a panic. -/
def deepcopy : Value → Option Value
  | .list xs => (deepcopyList xs).map Value.list
  | .map kvs => (deepcopyEntries kvs).map Value.map
  | v => some v
/-- The loop of `deepcopy.Copy` over the elements of a slice. -/
def deepcopyList : List Value → Option (List Value)
  | [] => some []
  | x :: xs =>
    match deepcopy x, deepcopyList xs with
    | some y, some ys => some (y :: ys)
    | _, _ => none
/-- The loop of `deepcopy.Copy` over the entries of a map: the value is copied, then the
key, and the copy is stored under the copied key. -/
def deepcopyEntries : List (Value × Value) → Option (List (Value × Value))
  | [] => some []
  | (k, v) :: rest =>
    if uncopyableKey k then none
    else
      match deepcopy v, deepcopy k, deepcopyEntries rest with
      | some w, some c, some ws => some ((c, w) :: ws)
      | _, _, _ => none
end

/-! ## `pipeline.go` -/

/-- The function `stringReplaceProjectLabel`. -/
def stringReplaceProjectLabel (rt : GoRuntime) (input : String) (project : Project) : String :=
  let lowerLabel := ToLower rt project.Label
  let envVarEscapedWithBraces := ReplaceAll input "$$\x7bBUILDPIPE_PROJECT_LABEL\x7d" lowerLabel
  let envVarWithBraces := ReplaceAll envVarEscapedWithBraces "$\x7bBUILDPIPE_PROJECT_LABEL\x7d" lowerLabel
  let envVarEscaped := ReplaceAll envVarWithBraces "$$BUILDPIPE_PROJECT_LABEL" lowerLabel
  ReplaceAll envVarEscaped "$BUILDPIPE_PROJECT_LABEL" lowerLabel

/-- The function `isProjectScopeStep`. -/
def isProjectScopeStep (step : Fields) : Bool :=
  match mapGet? step "env" with
  | some (.map env) =>
    match mapGet? env "BUILDPIPE_SCOPE" with
    | some (.str value) => decide (value = "project")
    | _ => false
  | _ => false

/-- The function `findStepByKey`; `none` is the nil map. -/
def findStepByKey : List Value → String → Option Fields
  | [], _ => none
  | .map stepMap :: rest, stepKey =>
    match mapGet? stepMap "key" with
    | some (.str foundStepKey) =>
      if stepKey = foundStepKey then some stepMap else findStepByKey rest stepKey
    | _ => findStepByKey rest stepKey
  | _ :: rest, stepKey => findStepByKey rest stepKey

/-- The body of the loop over `notify` in `generateProjectSteps`. -/
def notifyElement (rt : GoRuntime) (project : Project) (element : Value) : Value :=
  match element with
  | .map commitStatusMap =>
    match mapGet? commitStatusMap "github_commit_status" with
    | some (.map commitStatus) =>
      match mapGet? commitStatus "context" with
      | some (.str context) =>
        .map (mapSet commitStatusMap "github_commit_status"
          (.map (mapSet commitStatus "context"
            (.str (stringReplaceProjectLabel rt context project)))))
      | _ => element
    | _ => element
  | _ => element

/-- The key of the cache plugin in a `plugins` entry. -/
def cachePluginKey : String :=
  "ssh://git@github.com/Vkt0r/cache-buildkite-plugin.git#skip_restore_upload"

/-- The body of the loop over `plugins` in `generateProjectSteps`. -/
def pluginElement (rt : GoRuntime) (project : Project) (element : Value) : Value :=
  match element with
  | .map pluginMap =>
    match mapGet? pluginMap cachePluginKey with
    | some (.map cachePlugin) =>
      match mapGet? cachePlugin "id" with
      | some (.str cacheId) =>
        .map (mapSet pluginMap cachePluginKey
          (.map (mapSet cachePlugin "id" (.str (stringReplaceProjectLabel rt cacheId project)))))
      | _ => element
    | _ => element
  | _ => element

/-- One iteration of the loop over `dependencyList`: the new value of `dependencyList[i]`,
or `none` when `dependency.(string)` panics. -/
def rewriteDependency (steps : List Value) (project : Project) (dependency : Value) :
    Option Value :=
  match dependency with
  | .str depStr =>
    match findStepByKey steps depStr with
    | some step =>
      if isProjectScopeStep step then some (.str (depStr ++ ":" ++ project.Label))
      else some dependency
    | none => some dependency
  | _ => none

/-- The loop `for i, dependency := range dependencyList`. -/
def rewriteDependencies (steps : List Value) (project : Project) :
    List Value → Option (List Value)
  | [] => some []
  | dependency :: rest =>
    match rewriteDependency steps project dependency with
    | some d =>
      match rewriteDependencies steps project rest with
      | some ds => some (d :: ds)
      | none => none
    | none => none

/-- The list the dependency loop ranges over: `val` when it is a list, and otherwise the
one-element list `[]interface{}{val}`. -/
def dependencyList : Value → List Value
  | .list xs => xs
  | val => [val]

/-- The `depends_on` block of `generateProjectSteps`.  The loop writes into the list that
`stepCopyMap["depends_on"]` holds, so the field ends as the rewritten list. -/
def rewriteDependsOn (steps : List Value) (project : Project) (stepCopyMap : Fields) :
    Option Fields :=
  match mapGet? stepCopyMap "depends_on" with
  | some val =>
    match rewriteDependencies steps project (dependencyList val) with
    | some ds => some (mapSet stepCopyMap "depends_on" (.list ds))
    | none => none
  | none => some stepCopyMap

/-- The body of `if project.checkProjectRules(stepCopyMap)` in `generateProjectSteps`: the
copy after all its updates, or `none` on a panic.  The `fmt.Println` of the plugins writes
to standard output only and has no part in the value. -/
def projectStep (rt : GoRuntime) (steps : List Value) (stepCopyMap : Fields)
    (project : Project) : Option Fields :=
  let m1 := mapSet stepCopyMap "label"
    (.str (sprintS rt (mapIndex stepCopyMap "label") ++ " " ++ project.Label))
  match mapGet? m1 "env" with
  | some (.map env) =>
    let env1 := mapSet env "BUILDPIPE_PROJECT_LABEL" (.str project.Label)
    let env2 := mapSet env1 "BUILDPIPE_PROJECT_PATH" (.str project.mainPath)
    let env3 := rangeAssign project.Env env2
    let m2 := mapSet m1 "env" (.map env3)
    let m3 := match mapGet? m2 "key" with
      | some val => mapSet m2 "key" (.str (sprintS rt val ++ ":" ++ project.Label))
      | none => m2
    let m4 := match mapGet? m3 "notify" with
      | some (.list notify) => mapSet m3 "notify" (.list (notify.map (notifyElement rt project)))
      | _ => m3
    let m5 := match mapGet? m4 "plugins" with
      | some (.list plugins) => mapSet m4 "plugins" (.list (plugins.map (pluginElement rt project)))
      | _ => m4
    rewriteDependsOn steps project m5
  | _ => none

/-- The function `generateProjectSteps`.  Each iteration copies `step` first, so a panic
of the copy or of the assertion on the copy comes before the inclusion predicate. -/
def generateProjectSteps (rt : GoRuntime) (steps : List Value) (step : Value) :
    List Project → Option (List Value)
  | [] => some []
  | project :: rest =>
    match deepcopy step with
    | some (.map stepCopyMap) =>
      if project.checkProjectRules stepCopyMap then
        match projectStep rt steps stepCopyMap project with
        | some stepCopy =>
          match generateProjectSteps rt steps step rest with
          | some projectSteps => some (.map stepCopy :: projectSteps)
          | none => none
        | none => none
      else generateProjectSteps rt steps step rest
    | _ => none

/-- The lookup `env, foundEnv := stepMap["env"].(map[interface{}]interface{})`: `none` is
the nil map of a failed assertion. -/
def stepEnv (stepMap : Fields) : Option Fields :=
  match mapGet? stepMap "env" with
  | some (.map env) => some env
  | _ => none

/-- The lookup `_, foundBlockStep := stepMap["block"].(string)`. -/
def foundBlockStep (stepMap : Fields) : Bool :=
  match mapGet? stepMap "block" with
  | some (.str _) => true
  | _ => false

/-- The env merge at the head of the loop body of `generatePipeline`: the step record
after the merge, and `env` (`none` is the nil map). -/
def mergePipelineEnv (pipelineEnv : StrMap) (stepMap : Fields) : Fields × Option Fields :=
  if foundBlockStep stepMap then (stepMap, stepEnv stepMap)
  else
    let env := rangeAssign pipelineEnv ((stepEnv stepMap).getD [])
    (mapSet stepMap "env" (.map env), some env)

/-- The test `value, ok := env["BUILDPIPE_SCOPE"]; ok && value == "project"`. -/
def scopeIsProject (env : Option Fields) : Bool :=
  match env with
  | some e =>
    match mapGet? e "BUILDPIPE_SCOPE" with
    | some (.str value) => decide (value = "project")
    | _ => false
  | none => false

/-- The loop of `generatePipeline`.  `done` holds the steps already visited, as the loop
left them in the list, and the second list the steps still to visit: together they are
the current contents of `steps`.  The result is what the loop appends to
`generatedSteps` from here on. -/
def generatePipelineLoop (rt : GoRuntime) (pipelineEnv : StrMap) (projects : List Project) :
    List Value → List Value → Option (List Value)
  | _, [] => some []
  | done, .map stepMap :: rest =>
    let merged := mergePipelineEnv pipelineEnv stepMap
    let step := Value.map merged.1
    let here : Option (List Value) :=
      if scopeIsProject merged.2 then
        generateProjectSteps rt (done ++ step :: rest) step projects
      else some [step]
    match here with
    | some stepsHere =>
      match generatePipelineLoop rt pipelineEnv projects (done ++ [step]) rest with
      | some stepsAfter => some (stepsHere ++ stepsAfter)
      | none => none
    | none => none
  | done, step :: rest =>
    match generatePipelineLoop rt pipelineEnv projects (done ++ [step]) rest with
    | some stepsAfter => some (step :: stepsAfter)
    | none => none

/-- The function `generatePipeline`. -/
def generatePipeline (rt : GoRuntime) (steps : List Value) (pipelineEnv : StrMap)
    (projects : List Project) : Option Pipeline :=
  (generatePipelineLoop rt pipelineEnv projects [] steps).map Pipeline.mk

/-! ## Vocabulary of the statements -/

/-- Whether a value is a string. -/
def isStr : Value → Bool
  | .str _ => true
  | _ => false

/-- Whether `depends_on`, when the record has it, is a string or a list of strings. -/
def dependsOnStrings (step : Fields) : Bool :=
  match mapGet? step "depends_on" with
  | none => true
  | some (.str _) => true
  | some (.list xs) => xs.all isStr
  | some _ => false

mutual
/-- Whether no map anywhere inside the value has a key that is null or a NaN. -/
def copyableKeys : Value → Bool
  | .list xs => copyableKeysList xs
  | .map kvs => copyableKeysEntries kvs
  | _ => true
/-- Whether `copyableKeys` holds of every element. -/
def copyableKeysList : List Value → Bool
  | [] => true
  | x :: xs => copyableKeys x && copyableKeysList xs
/-- Whether no key of the entries is null or a NaN and `copyableKeys` holds of every key
and every value. -/
def copyableKeysEntries : List (Value × Value) → Bool
  | [] => true
  | (k, v) :: rest =>
    !uncopyableKey k && copyableKeys k && copyableKeys v && copyableKeysEntries rest
end

/-- The entry `o` that a clone for project `p` has at the place of the dependency `d`:
`d`, ':' and the Label when `findStepByKey` finds a project-scoped step for `d`, and `d`
when no record of `allSteps` has key `d` or the step found is not project-scoped. -/
def DependencyRewritten (allSteps : List Value) (p : Project) (d : String)
    (o : Option Value) : Prop :=
  ((∃ s, findStepByKey allSteps d = some s ∧ isProjectScopeStep s = true) →
    o = some (.str (d ++ ":" ++ p.Label))) ∧
  ((∀ m, Value.map m ∈ allSteps → mapGet? m "key" ≠ some (.str d)) → o = some (.str d)) ∧
  ((∃ s, findStepByKey allSteps d = some s ∧ isProjectScopeStep s = false) →
    o = some (.str d))

/-- The projects whose inclusion predicate accepts the step record, in list order. -/
def matchingProjects (step : Fields) (projects : List Project) : List Project :=
  projects.filter (fun p => p.checkProjectRules step)

/-- The record of a map step, `none` for a step that is not a record. -/
def stepFields : Value → Option Fields
  | .map m => some m
  | _ => none

/-- The `key` field of a step; a step that is not a record has none. -/
def stepKey (step : Value) : Option Value :=
  (stepFields step).bind (fun m => mapGet? m "key")

/-- The keys of the steps of a list, in order. -/
def keysOf (steps : List Value) : List Value :=
  steps.filterMap stepKey

/-- The part of a key before its first ':'. -/
def keyStem (s : String) : String :=
  String.mk (s.data.takeWhile (fun c => c != ':'))

/-- A step as `generatePipeline` leaves it in the list after visiting it: a record with
the pipeline env merged in (no merge for a block step), anything else untouched. -/
def mergedStep (pipelineEnv : StrMap) : Value → Value
  | .map stepMap => .map (mergePipelineEnv pipelineEnv stepMap).1
  | step => step

/-- Whether `generatePipeline` replaces the step by the clones of the step cloner: the
outcome of its test on `BUILDPIPE_SCOPE`, `false` for a step that is not a record. -/
def expands (pipelineEnv : StrMap) : Value → Bool
  | .map stepMap => scopeIsProject (mergePipelineEnv pipelineEnv stepMap).2
  | _ => false

/-- The contents of the step list while `generatePipeline` visits index `i`: the steps up
to and including `i` have been merged, the later ones not yet. -/
def stepsAt (pipelineEnv : StrMap) (steps : List Value) (i : Nat) : List Value :=
  (steps.take (i + 1)).map (mergedStep pipelineEnv) ++ steps.drop (i + 1)

/-- What one step contributes to the output when the list holds `state`: its clones when
it is expanded, and otherwise the merged step alone. -/
def stepResult (rt : GoRuntime) (pipelineEnv : StrMap) (projects : List Project)
    (state : List Value) (step : Value) : Option (List Value) :=
  if expands pipelineEnv step then
    generateProjectSteps rt state (mergedStep pipelineEnv step) projects
  else some [mergedStep pipelineEnv step]

/-- The number of projects whose inclusion predicate accepts the step as it stands after
the pipeline-env merge (the record that the step cloner copies). -/
def matchCount (pipelineEnv : StrMap) (projects : List Project) (step : Value) : Nat :=
  match mergedStep pipelineEnv step with
  | .map m => (matchingProjects m projects).length
  | _ => 0

/-- The list `parts` holds, position by position, what each step of `steps` contributes
to the output of `generatePipeline`. -/
def PipelineParts (rt : GoRuntime) (steps : List Value) (pipelineEnv : StrMap)
    (projects : List Project) (parts : List (List Value)) : Prop :=
  parts.length = steps.length ∧
  ∀ (i : Nat) (step : Value), steps[i]? = some step →
    stepResult rt pipelineEnv projects (stepsAt pipelineEnv steps i) step = parts[i]?

/-- The four forms in which a string refers to the project label. -/
inductive LabelForm where
  | escapedBraces
  | braces
  | escaped
  | bare

/-- The text of a form. -/
def LabelForm.text : LabelForm → String
  | .escapedBraces => "$$\x7bBUILDPIPE_PROJECT_LABEL\x7d"
  | .braces => "$\x7bBUILDPIPE_PROJECT_LABEL\x7d"
  | .escaped => "$$BUILDPIPE_PROJECT_LABEL"
  | .bare => "$BUILDPIPE_PROJECT_LABEL"

/-- The place of a form in the order in which `stringReplaceProjectLabel` replaces them. -/
def LabelForm.rank : LabelForm → Nat
  | .escapedBraces => 1
  | .braces => 2
  | .escaped => 3
  | .bare => 4

/-- The string `s0 f1 s1 ... fn sn` with `piece f` written for each form `f`. -/
def interleave (piece : LabelForm → String) : String → List (LabelForm × String) → String
  | s0, [] => s0
  | s0, (f, s) :: rest => s0 ++ piece f ++ interleave piece s rest

/-- A form after the first `j` replacements: `l` once its turn has come, its text before. -/
def pieceAfter (j : Nat) (l : String) (f : LabelForm) : String :=
  if f.rank ≤ j then l else f.text

/-- The string `pat` occurs in the string `s`. -/
def occursIn (pat s : String) : Prop :=
  pat.data <:+: s.data

/-- The entries of a record whose key is none of `names`, in order. -/
def otherEntries (names : List String) (m : Fields) : Fields :=
  m.filter (fun kv => !names.any (fun n => keyIs n kv.1))

/-- The value `e2` is `e1` with the string at `e1[outer][inner]` replaced by its image
under `f`, when `e1` is a record whose `outer` field is a record whose `inner` field is a
string; otherwise `e2` is `e1`. -/
def NestedStringRewritten (outer inner : String) (f : String → String) (e1 e2 : Value) :
    Prop :=
  (∀ (m1 n1 : Fields) (text : String), e1 = Value.map m1 →
    mapGet? m1 outer = some (.map n1) → mapGet? n1 inner = some (.str text) →
    ∃ (m2 n2 : Fields), e2 = Value.map m2 ∧
      mapGet? m2 outer = some (.map n2) ∧ mapGet? n2 inner = some (.str (f text)) ∧
      (∀ name : String, name ≠ inner → mapGet? n2 name = mapGet? n1 name) ∧
      otherEntries [inner] n2 = otherEntries [inner] n1 ∧
      (∀ name : String, name ≠ outer → mapGet? m2 name = mapGet? m1 name) ∧
      otherEntries [outer] m2 = otherEntries [outer] m1) ∧
  ((¬ ∃ (m1 n1 : Fields) (text : String), e1 = Value.map m1 ∧
      mapGet? m1 outer = some (.map n1) ∧ mapGet? n1 inner = some (.str text)) → e2 = e1)

/-! ## Concrete inputs -/

/-- A runtime for evaluating the functions on concrete inputs: ASCII strings and string
labels and keys never reach its two fields. -/
def asciiRuntime : GoRuntime := ⟨id, fun _ => "%!s(?)"⟩

/-- A project `Svc` that takes part in every step. -/
def projectSvc : Project := ⟨"Svc", ⟨[("TIER", "backend")], by decide⟩, "services/svc", fun _ => true⟩

/-- A project `svc` that takes part in every step. -/
def projectLowerSvc : Project := ⟨"svc", ⟨[], by decide⟩, "svc", fun _ => true⟩

/-- A project `web` that takes part in no step. -/
def projectWeb : Project := ⟨"web", ⟨[], by decide⟩, "web", fun _ => false⟩

/-- A project-scoped step with key `build`. -/
def stepBuild : Fields :=
  [(.str "label", .str "Build"), (.str "key", .str "build"),
   (.str "env", .map [(.str "BUILDPIPE_SCOPE", .str "project")])]

/-- A project-scoped step that depends on `build`. -/
def stepTest : Fields :=
  [(.str "label", .str "Test"), (.str "depends_on", .str "build"),
   (.str "env", .map [(.str "BUILDPIPE_SCOPE", .str "project")])]

/-- The clone of `stepBuild` for `projectSvc`. -/
def stepBuildSvc : Fields :=
  [(.str "label", .str "Build Svc"), (.str "key", .str "build:Svc"),
   (.str "env", .map [(.str "BUILDPIPE_SCOPE", .str "project"),
     (.str "BUILDPIPE_PROJECT_LABEL", .str "Svc"),
     (.str "BUILDPIPE_PROJECT_PATH", .str "services/svc"), (.str "TIER", .str "backend")])]

/-- The clone of `stepBuild` for `projectLowerSvc`. -/
def stepBuildLowerSvc : Fields :=
  [(.str "label", .str "Build svc"), (.str "key", .str "build:svc"),
   (.str "env", .map [(.str "BUILDPIPE_SCOPE", .str "project"),
     (.str "BUILDPIPE_PROJECT_LABEL", .str "svc"),
     (.str "BUILDPIPE_PROJECT_PATH", .str "svc")])]

/-- The empty pipeline env. -/
def noPipelineEnv : StrMap := ⟨[], List.nodup_nil⟩

/-- A pipeline-level step whose key has the shape of an expanded key. -/
def stepDeploy : Fields :=
  [(.str "label", .str "Deploy"), (.str "key", .str "build:Svc")]

/-- A pipeline env that sets `REGION` and `TIER`. -/
def pipelineEnvRegion : StrMap := ⟨[("REGION", "eu"), ("TIER", "shared")], by decide⟩

/-- A pipeline-level step that sets `REGION` itself. -/
def stepLint : Fields :=
  [(.str "label", .str "Lint"), (.str "env", .map [(.str "REGION", .str "us")])]

/-- A project-scoped step whose `depends_on` lists a dependency as a record, as Buildkite
allows (`- step: build`). -/
def stepTestRecordDependency : Fields :=
  [(.str "label", .str "Test"),
   (.str "depends_on", .list [.map [(.str "step", .str "build")]]),
   (.str "env", .map [(.str "BUILDPIPE_SCOPE", .str "project")])]

/-- A project-scoped step whose `depends_on` is a number. -/
def stepTestNumberDependency : Fields :=
  [(.str "label", .str "Test"), (.str "depends_on", .int 7),
   (.str "env", .map [(.str "BUILDPIPE_SCOPE", .str "project")])]

/-- A step record without an env mapping. -/
def stepNoEnv : Fields :=
  [(.str "label", .str "Build"), (.str "key", .str "build")]

/-- A block step. -/
def stepBlock : Fields :=
  [(.str "block", .str "Release?")]

/-- A project whose Label is `_`. -/
def projectUnderscore : Project := ⟨"_", ⟨[], by decide⟩, "misc", fun _ => true⟩

/-- A pipeline env that makes every step that is not a block step project-scoped. -/
def pipelineEnvScope : StrMap := ⟨[("BUILDPIPE_SCOPE", "project")], by decide⟩

/-- A step that depends on `build` and has no env of its own. -/
def stepTestPlain : Fields :=
  [(.str "label", .str "Test"), (.str "depends_on", .str "build")]

/-- A project-scoped step with a command that names the label variable, a commit status
and the cache plugin. -/
def stepPublish : Fields :=
  [(.str "label", .str "Publish"),
   (.str "command", .str "make publish-$BUILDPIPE_PROJECT_LABEL"),
   (.str "env", .map [(.str "BUILDPIPE_SCOPE", .str "project")]),
   (.str "notify", .list [.map [(.str "github_commit_status",
     .map [(.str "context", .str "ci/$BUILDPIPE_PROJECT_LABEL")])], .str "slack"]),
   (.str "plugins", .list [.map [(.str cachePluginKey,
     .map [(.str "id", .str "cache-$BUILDPIPE_PROJECT_LABEL"), (.str "key", .str "v1")])]])]

/-- A step record with an env mapping and a null key (`~: x` in YAML). -/
def stepNullKey : Fields :=
  [(.str "label", .str "T"), (.str "env", .map []), (.null, .str "x")]

/-- A project-scoped step that depends on `build` and on `lint`, given as a list. -/
def stepTestList : Fields :=
  [(.str "label", .str "Test"), (.str "depends_on", .list [.str "build", .str "lint"]),
   (.str "env", .map [(.str "BUILDPIPE_SCOPE", .str "project")])]

/-! ## Maps -/

theorem mapGet?_mapSet_same (m : Fields) (name : String) (v : Value) :
    mapGet? (mapSet m name v) name = some v := by
  induction m with
  | nil => simp [mapSet, mapGet?, keyIs]
  | cons kv rest ih =>
    obtain ⟨k, w⟩ := kv
    by_cases h : keyIs name k = true
    · simp [mapSet, mapGet?, h]
    · simp [mapSet, mapGet?, h, ih]

theorem keyIs_inj {a b : String} {k : Value} (ha : keyIs a k = true) (hb : keyIs b k = true) :
    a = b := by
  cases k <;> simp [keyIs] at ha hb
  rw [← ha, ← hb]

theorem mapGet?_mapSet_ne (m : Fields) {a b : String} (v : Value) (h : a ≠ b) :
    mapGet? (mapSet m a v) b = mapGet? m b := by
  induction m with
  | nil =>
    have : ¬ (a = b) := h
    simp [mapSet, mapGet?, keyIs, this]
  | cons kv rest ih =>
    obtain ⟨k, w⟩ := kv
    by_cases ha : keyIs a k = true
    · have hb : ¬ keyIs b k = true := fun hb => h (keyIs_inj ha hb)
      simp [mapSet, mapGet?, ha, hb]
    · by_cases hb : keyIs b k = true
      · simp [mapSet, mapGet?, ha, hb]
      · simp [mapSet, mapGet?, ha, hb, ih]

theorem mapGet?_foldl_not_mem (l : List (String × String)) (env : Fields) (name : String)
    (h : name ∉ l.map Prod.fst) :
    mapGet? (l.foldl (fun e kv => mapSet e kv.1 (Value.str kv.2)) env) name = mapGet? env name := by
  induction l generalizing env with
  | nil => rfl
  | cons kv rest ih =>
    simp only [List.map_cons, List.mem_cons, not_or] at h
    rw [List.foldl_cons, ih _ h.2, mapGet?_mapSet_ne _ _ (Ne.symm h.1)]

theorem mapGet?_foldl_mem (l : List (String × String)) (env : Fields) (name value : String)
    (hnd : (l.map Prod.fst).Nodup) (h : (name, value) ∈ l) :
    mapGet? (l.foldl (fun e kv => mapSet e kv.1 (Value.str kv.2)) env) name
      = some (Value.str value) := by
  induction l generalizing env with
  | nil => simp at h
  | cons kv rest ih =>
    simp only [List.map_cons, List.nodup_cons] at hnd
    rw [List.foldl_cons]
    rcases List.mem_cons.mp h with h | h
    · subst h
      rw [mapGet?_foldl_not_mem _ _ _ hnd.1, mapGet?_mapSet_same]
    · exact ih _ hnd.2 h

theorem mapGet?_rangeAssign_mem (m : StrMap) (env : Fields) (name value : String)
    (h : (name, value) ∈ m.entries) :
    mapGet? (rangeAssign m env) name = some (Value.str value) :=
  mapGet?_foldl_mem _ _ _ _ m.nodup h

theorem mapGet?_rangeAssign_not_mem (m : StrMap) (env : Fields) (name : String)
    (h : name ∉ m.entries.map Prod.fst) :
    mapGet? (rangeAssign m env) name = mapGet? env name :=
  mapGet?_foldl_not_mem _ _ _ h

/-! ## The step cloner -/

theorem mapGet?_label_env (m : Fields) (v : Value) :
    mapGet? (mapSet m "label" v) "env" = mapGet? m "env" :=
  mapGet?_mapSet_ne m v (by decide)

theorem rewriteDependencies_eq_some_iff (steps : List Value) (p : Project)
    (ds out : List Value) :
    rewriteDependencies steps p ds = some out ↔
      List.Forall₂ (fun d o => rewriteDependency steps p d = some o) ds out := by
  induction ds generalizing out with
  | nil =>
    cases out <;> simp [rewriteDependencies]
  | cons d rest ih =>
    cases hd : rewriteDependency steps p d with
    | none =>
      simp only [rewriteDependencies, hd]
      constructor
      · intro h
        cases h
      · intro h
        cases h with
        | cons h1 _ => rw [hd] at h1; cases h1
    | some o =>
      cases hr : rewriteDependencies steps p rest with
      | none =>
        simp only [rewriteDependencies, hd, hr]
        constructor
        · intro h
          cases h
        · intro h
          cases h with
          | cons _ h2 => rw [(ih _).mpr h2] at hr; cases hr
      | some os =>
        simp only [rewriteDependencies, hd, hr, Option.some.injEq]
        constructor
        · rintro rfl
          exact List.Forall₂.cons hd ((ih _).mp hr)
        · intro h
          cases h with
          | cons h1 h2 =>
            rw [hd] at h1
            rw [(ih _).mpr h2] at hr
            cases h1
            cases hr
            rfl

theorem rewriteDependency_isSome (steps : List Value) (p : Project) (d : Value)
    (h : isStr d = true) : ∃ o, rewriteDependency steps p d = some o := by
  cases d <;> simp [isStr] at h
  rename_i s
  cases hf : findStepByKey steps s with
  | none => exact ⟨.str s, by simp [rewriteDependency, hf]⟩
  | some step =>
    by_cases hs : isProjectScopeStep step = true
    · exact ⟨.str (s ++ ":" ++ p.Label), by simp [rewriteDependency, hf, hs]⟩
    · exact ⟨.str s, by simp [rewriteDependency, hf, hs]⟩

theorem rewriteDependencies_isSome (steps : List Value) (p : Project) (ds : List Value)
    (h : ds.all isStr = true) : ∃ out, rewriteDependencies steps p ds = some out := by
  induction ds with
  | nil => exact ⟨[], rfl⟩
  | cons d rest ih =>
    simp only [List.all_cons, Bool.and_eq_true] at h
    obtain ⟨o, ho⟩ := rewriteDependency_isSome steps p d h.1
    obtain ⟨os, hos⟩ := ih h.2
    exact ⟨o :: os, by simp [rewriteDependencies, ho, hos]⟩

theorem rewriteDependsOn_isSome (steps : List Value) (p : Project) (m : Fields)
    (h : dependsOnStrings m = true) : ∃ c, rewriteDependsOn steps p m = some c := by
  unfold dependsOnStrings at h
  unfold rewriteDependsOn
  cases hd : mapGet? m "depends_on" with
  | none => exact ⟨m, rfl⟩
  | some val =>
    rw [hd] at h
    have hall : (dependencyList val).all isStr = true := by
      cases val <;> simp_all [dependencyList, isStr]
    obtain ⟨ds, hds⟩ := rewriteDependencies_isSome steps p _ hall
    exact ⟨mapSet m "depends_on" (.list ds), by simp only [hds]⟩

theorem rewriteDependsOn_get_ne (steps : List Value) (p : Project) (m c : Fields)
    (h : rewriteDependsOn steps p m = some c) (name : String) (hne : name ≠ "depends_on") :
    mapGet? c name = mapGet? m name := by
  unfold rewriteDependsOn at h
  split at h
  · split at h
    · simp only [Option.some.injEq] at h
      subst h
      exact mapGet?_mapSet_ne _ _ (Ne.symm hne)
    · cases h
  · simp only [Option.some.injEq] at h
    subst h
    rfl

theorem rewriteDependsOn_get (steps : List Value) (p : Project) (m c : Fields)
    (h : rewriteDependsOn steps p m = some c) :
    (mapGet? m "depends_on" = none ∧ mapGet? c "depends_on" = none) ∨
    ∃ val ds, mapGet? m "depends_on" = some val ∧
      rewriteDependencies steps p (dependencyList val) = some ds ∧
      mapGet? c "depends_on" = some (.list ds) := by
  unfold rewriteDependsOn at h
  split at h
  · rename_i val hval
    split at h
    · rename_i ds hds
      simp only [Option.some.injEq] at h
      subst h
      exact Or.inr ⟨val, ds, hval, hds, mapGet?_mapSet_same _ _ _⟩
    · cases h
  · rename_i hnone
    simp only [Option.some.injEq] at h
    subst h
    exact Or.inl ⟨hnone, hnone⟩

/-- The record that `projectStep` hands to the `depends_on` block. -/
theorem projectStep_stages (rt : GoRuntime) (steps : List Value) (m env : Fields) (p : Project)
    (henv : mapGet? m "env" = some (.map env)) :
    ∃ m5 : Fields, projectStep rt steps m p = rewriteDependsOn steps p m5 ∧
      mapGet? m5 "label" = some (.str (sprintS rt (mapIndex m "label") ++ " " ++ p.Label)) ∧
      mapGet? m5 "env" = some (.map (rangeAssign p.Env
        (mapSet (mapSet env "BUILDPIPE_PROJECT_LABEL" (.str p.Label))
          "BUILDPIPE_PROJECT_PATH" (.str p.mainPath)))) ∧
      mapGet? m5 "key" = (mapGet? m "key").map
        (fun val => .str (sprintS rt val ++ ":" ++ p.Label)) ∧
      mapGet? m5 "depends_on" = mapGet? m "depends_on" ∧
      ∀ name, name ≠ "label" → name ≠ "env" → name ≠ "key" → name ≠ "notify" →
        name ≠ "plugins" → mapGet? m5 name = mapGet? m name := by
  unfold projectStep
  simp only [mapGet?_label_env, henv]
  refine ⟨_, rfl, ?_, ?_, ?_, ?_, ?_⟩
  · split <;> split <;> split <;>
      simp [mapGet?_mapSet_same, mapGet?_mapSet_ne]
  · split <;> split <;> split <;>
      simp [mapGet?_mapSet_same, mapGet?_mapSet_ne]
  · split <;> split <;> split <;>
      simp_all [mapGet?_mapSet_same, mapGet?_mapSet_ne]
  · split <;> split <;> split <;>
      simp_all [mapGet?_mapSet_same, mapGet?_mapSet_ne]
  · intro name h1 h2 h3 h4 h5
    split <;> split <;> split <;>
      simp [mapGet?_mapSet_same, mapGet?_mapSet_ne, Ne.symm h1, Ne.symm h2, Ne.symm h3,
        Ne.symm h4, Ne.symm h5]

theorem projectStep_env_of_some (rt : GoRuntime) (steps : List Value) (m c : Fields)
    (p : Project) (h : projectStep rt steps m p = some c) :
    ∃ env, mapGet? m "env" = some (.map env) := by
  unfold projectStep at h
  simp only [mapGet?_label_env] at h
  split at h
  · rename_i env henv
    exact ⟨env, henv⟩
  · cases h

theorem projectStep_isSome (rt : GoRuntime) (steps : List Value) (m env : Fields) (p : Project)
    (henv : mapGet? m "env" = some (.map env)) (hdeps : dependsOnStrings m = true) :
    ∃ c, projectStep rt steps m p = some c := by
  obtain ⟨m5, h5, -, -, -, hd, -⟩ := projectStep_stages rt steps m env p henv
  rw [h5]
  apply rewriteDependsOn_isSome
  unfold dependsOnStrings at hdeps ⊢
  rw [hd]
  exact hdeps

/-- The fields of a clone that do not depend on the `depends_on` block. -/
theorem projectStep_fields (rt : GoRuntime) (steps : List Value) (m c : Fields) (p : Project)
    (h : projectStep rt steps m p = some c) :
    mapGet? c "label" = some (.str (sprintS rt (mapIndex m "label") ++ " " ++ p.Label)) ∧
    (∃ env, mapGet? m "env" = some (.map env) ∧
      mapGet? c "env" = some (.map (rangeAssign p.Env
        (mapSet (mapSet env "BUILDPIPE_PROJECT_LABEL" (.str p.Label))
          "BUILDPIPE_PROJECT_PATH" (.str p.mainPath))))) ∧
    mapGet? c "key" = (mapGet? m "key").map
      (fun val => .str (sprintS rt val ++ ":" ++ p.Label)) := by
  obtain ⟨env, henv⟩ := projectStep_env_of_some rt steps m c p h
  obtain ⟨m5, h5, hl, he, hk, -, -⟩ := projectStep_stages rt steps m env p henv
  rw [h5] at h
  have hne := rewriteDependsOn_get_ne steps p m5 c h
  refine ⟨?_, ⟨env, henv, ?_⟩, ?_⟩
  · rw [hne _ (by decide), hl]
  · rw [hne _ (by decide), he]
  · rw [hne _ (by decide), hk]

/-- The `depends_on` of a clone. -/
theorem projectStep_dependsOn (rt : GoRuntime) (steps : List Value) (m c : Fields)
    (p : Project) (h : projectStep rt steps m p = some c) :
    (mapGet? m "depends_on" = none ∧ mapGet? c "depends_on" = none) ∨
    ∃ val ds, mapGet? m "depends_on" = some val ∧
      rewriteDependencies steps p (dependencyList val) = some ds ∧
      mapGet? c "depends_on" = some (.list ds) := by
  obtain ⟨env, henv⟩ := projectStep_env_of_some rt steps m c p h
  obtain ⟨m5, h5, -, -, -, hd, -⟩ := projectStep_stages rt steps m env p henv
  rw [h5] at h
  have := rewriteDependsOn_get steps p m5 c h
  rw [hd] at this
  exact this

mutual
/-- The copy is the value itself, and there is one exactly when no map inside the value
has a null or NaN key. -/
theorem deepcopy_eq (v : Value) : deepcopy v = if copyableKeys v then some v else none := by
  cases v with
  | list xs =>
    simp only [deepcopy, copyableKeys, deepcopyList_eq xs]
    split <;> rfl
  | map kvs =>
    simp only [deepcopy, copyableKeys, deepcopyEntries_eq kvs]
    split <;> rfl
  | _ => simp [deepcopy, copyableKeys]
theorem deepcopyList_eq (xs : List Value) :
    deepcopyList xs = if copyableKeysList xs then some xs else none := by
  cases xs with
  | nil => simp [deepcopyList, copyableKeysList]
  | cons x xs =>
    simp only [deepcopyList, copyableKeysList, deepcopy_eq x, deepcopyList_eq xs]
    by_cases h1 : copyableKeys x = true <;> by_cases h2 : copyableKeysList xs = true <;>
      simp [h1, h2]
theorem deepcopyEntries_eq (kvs : List (Value × Value)) :
    deepcopyEntries kvs = if copyableKeysEntries kvs then some kvs else none := by
  cases kvs with
  | nil => simp [deepcopyEntries, copyableKeysEntries]
  | cons kv rest =>
    obtain ⟨k, v⟩ := kv
    simp only [deepcopyEntries, copyableKeysEntries, deepcopy_eq v, deepcopy_eq k,
      deepcopyEntries_eq rest]
    by_cases h0 : uncopyableKey k = true <;> by_cases h1 : copyableKeys k = true <;>
      by_cases h2 : copyableKeys v = true <;> by_cases h3 : copyableKeysEntries rest = true <;>
      simp [h0, h1, h2, h3]
end

theorem deepcopy_of_copyableKeys (v : Value) (h : copyableKeys v = true) :
    deepcopy v = some v := by
  rw [deepcopy_eq, if_pos h]

theorem deepcopy_of_not_copyableKeys (v : Value) (h : copyableKeys v = false) :
    deepcopy v = none := by
  rw [deepcopy_eq, h]
  rfl

theorem copyableKeys_mapSet (m : Fields) (name : String) (v : Value)
    (hm : copyableKeys (.map m) = true) (hv : copyableKeys v = true) :
    copyableKeys (.map (mapSet m name v)) = true := by
  simp only [copyableKeys] at hm ⊢
  induction m with
  | nil => simp [mapSet, copyableKeysEntries, uncopyableKey, copyableKeys, hv]
  | cons kv rest ih =>
    obtain ⟨k, w⟩ := kv
    simp only [copyableKeysEntries, Bool.and_eq_true] at hm
    by_cases hk : keyIs name k = true
    · simp only [mapSet, hk, if_true, copyableKeysEntries, Bool.and_eq_true]
      exact ⟨⟨⟨hm.1.1.1, hm.1.1.2⟩, hv⟩, hm.2⟩
    · simp only [mapSet, hk, Bool.false_eq_true, if_false, copyableKeysEntries,
        Bool.and_eq_true]
      exact ⟨hm.1, ih hm.2⟩

theorem copyableKeys_get (m : Fields) (name : String) (v : Value)
    (hm : copyableKeys (.map m) = true) (hv : mapGet? m name = some v) :
    copyableKeys v = true := by
  simp only [copyableKeys] at hm
  induction m with
  | nil => simp [mapGet?] at hv
  | cons kv rest ih =>
    obtain ⟨k, w⟩ := kv
    simp only [copyableKeysEntries, Bool.and_eq_true] at hm
    by_cases hk : keyIs name k = true
    · simp only [mapGet?, hk, if_true, Option.some.injEq] at hv
      subst hv
      exact hm.1.2
    · simp only [mapGet?, hk, Bool.false_eq_true, if_false] at hv
      exact ih hm.2 hv

theorem copyableKeys_rangeAssign (penv : StrMap) (env : Fields)
    (h : copyableKeys (.map env) = true) : copyableKeys (.map (rangeAssign penv env)) = true := by
  unfold rangeAssign
  generalize penv.entries = l
  induction l generalizing env with
  | nil => exact h
  | cons kv rest ih =>
    rw [List.foldl_cons]
    exact ih _ (copyableKeys_mapSet env kv.1 (.str kv.2) h rfl)

/-- The result of `generateProjectSteps` lists one clone per matching project. -/
theorem generateProjectSteps_forall₂ (rt : GoRuntime) (steps : List Value) (m : Fields)
    (projects : List Project) (out : List Value)
    (h : generateProjectSteps rt steps (.map m) projects = some out) :
    List.Forall₂ (fun p c => ∃ f, projectStep rt steps m p = some f ∧ c = Value.map f)
      (matchingProjects m projects) out := by
  induction projects generalizing out with
  | nil =>
    simp only [generateProjectSteps, Option.some.injEq] at h
    subst h
    exact List.Forall₂.nil
  | cons p rest ih =>
    by_cases hcopy : copyableKeys (.map m) = true
    · simp only [generateProjectSteps, deepcopy_of_copyableKeys _ hcopy] at h
      by_cases hp : p.checkProjectRules m = true
      · have hm : matchingProjects m (p :: rest) = p :: matchingProjects m rest := by
          simp [matchingProjects, hp]
        rw [hm]
        simp only [hp, if_true] at h
        cases hs : projectStep rt steps m p with
        | none => rw [hs] at h; cases h
        | some f =>
          cases hr : generateProjectSteps rt steps (.map m) rest with
          | none => rw [hs, hr] at h; cases h
          | some cs =>
            rw [hs, hr] at h
            simp only [Option.some.injEq] at h
            subst h
            exact List.Forall₂.cons ⟨f, hs, rfl⟩ (ih cs hr)
      · have hm : matchingProjects m (p :: rest) = matchingProjects m rest := by
          simp [matchingProjects, hp]
        rw [hm]
        simp only [hp, Bool.false_eq_true, if_false] at h
        exact ih out h
    · have hnone := deepcopy_of_not_copyableKeys _ ((Bool.not_eq_true _).mp hcopy)
      simp only [generateProjectSteps, hnone] at h
      cases h

/-- On a record that can be copied, `generateProjectSteps` returns the clones of the
matching projects when each of them can be made. -/
theorem generateProjectSteps_of_forall₂ (rt : GoRuntime) (steps : List Value) (m : Fields)
    (projects : List Project) (out : List Value)
    (hcopy : copyableKeys (.map m) = true)
    (h : List.Forall₂ (fun p c => ∃ f, projectStep rt steps m p = some f ∧ c = Value.map f)
      (matchingProjects m projects) out) :
    generateProjectSteps rt steps (.map m) projects = some out := by
  induction projects generalizing out with
  | nil =>
    cases h
    rfl
  | cons p rest ih =>
    simp only [generateProjectSteps, deepcopy_of_copyableKeys _ hcopy]
    by_cases hp : p.checkProjectRules m = true
    · have hm : matchingProjects m (p :: rest) = p :: matchingProjects m rest := by
        simp [matchingProjects, hp]
      rw [hm] at h
      cases h with
      | cons h1 h2 =>
        obtain ⟨f, hf, rfl⟩ := h1
        simp only [hp, if_true, hf, ih _ h2]
    · have hm : matchingProjects m (p :: rest) = matchingProjects m rest := by
        simp [matchingProjects, hp]
      rw [hm] at h
      simp only [hp, Bool.false_eq_true, if_false]
      exact ih _ h

theorem generateProjectSteps_isSome (rt : GoRuntime) (steps : List Value) (m env : Fields)
    (projects : List Project) (henv : mapGet? m "env" = some (.map env))
    (hdeps : dependsOnStrings m = true) (hcopy : copyableKeys (.map m) = true) :
    ∃ out, generateProjectSteps rt steps (.map m) projects = some out := by
  induction projects with
  | nil => exact ⟨[], rfl⟩
  | cons p rest ih =>
    obtain ⟨cs, hcs⟩ := ih
    by_cases hp : p.checkProjectRules m = true
    · obtain ⟨c, hc⟩ := projectStep_isSome rt steps m env p henv hdeps
      exact ⟨.map c :: cs, by
        simp [generateProjectSteps, deepcopy_of_copyableKeys _ hcopy, hp, hc, hcs]⟩
    · exact ⟨cs, by simp [generateProjectSteps, deepcopy_of_copyableKeys _ hcopy, hp, hcs]⟩

/-- A record with a null or NaN map key inside makes `generateProjectSteps` panic as
soon as there is a project. -/
theorem generateProjectSteps_of_not_copyableKeys (rt : GoRuntime) (steps : List Value)
    (step : Value) (p : Project) (rest : List Project) (h : copyableKeys step = false) :
    generateProjectSteps rt steps step (p :: rest) = none := by
  simp only [generateProjectSteps, deepcopy_of_not_copyableKeys _ h]

/-! ## Fan-out, keys and dependencies of the clones -/

theorem forall₂_getElem? {α β : Type} {R : α → β → Prop} {xs : List α} {ys : List β}
    (h : List.Forall₂ R xs ys) (i : Nat) (x : α) (hx : xs[i]? = some x) :
    ∃ y, ys[i]? = some y ∧ R x y := by
  induction h generalizing i with
  | nil => simp at hx
  | cons hr _ ih =>
    cases i with
    | zero =>
      simp only [List.getElem?_cons_zero, Option.some.injEq] at hx
      subst hx
      exact ⟨_, by simp, hr⟩
    | succ j =>
      simp only [List.getElem?_cons_succ] at hx
      obtain ⟨y, hy, hxy⟩ := ih j hx
      exact ⟨y, by simpa using hy, hxy⟩

/-- C1 (as stated) fails: the record `stepNullKey` has an env mapping and no depends_on,
and the project `Svc` accepts it, but the record has a null key and `deepcopy.Copy` panics
on it, so generateProjectSteps returns nothing. -/
theorem C1_counterexample_null_key_panics :
    mapGet? stepNullKey "env" = some (.map []) ∧
    dependsOnStrings stepNullKey = true ∧
    matchingProjects stepNullKey [projectSvc] = [projectSvc] ∧
    generateProjectSteps asciiRuntime [.map stepNullKey] (.map stepNullKey) [projectSvc]
      = none :=
  ⟨rfl, rfl, rfl, rfl⟩

/-- C1 (amended): for a step record with an env mapping whose depends_on entries are
strings and that has no null or NaN map key anywhere inside it, generateProjectSteps
returns (it does not panic) exactly one clone per project whose inclusion predicate
accepts the step, in project-list order: the result has the length of the list of
matching projects, and its i-th element is a record whose label is the source label as
`%s` renders it (the label itself when it is a string), a space, and the Label of the
i-th matching project. -/
theorem C1_fanout_one_clone_per_matching_project (rt : GoRuntime) (allSteps : List Value)
    (step env : Fields) (projects : List Project)
    (henv : mapGet? step "env" = some (.map env))
    (hdeps : dependsOnStrings step = true)
    (hcopy : copyableKeys (.map step) = true) :
    ∃ out, generateProjectSteps rt allSteps (.map step) projects = some out ∧
      out.length = (matchingProjects step projects).length ∧
      ∀ (i : Nat) (p : Project), (matchingProjects step projects)[i]? = some p →
        ∃ c : Fields, out[i]? = some (Value.map c) ∧
          mapGet? c "label"
            = some (.str (sprintS rt (mapIndex step "label") ++ " " ++ p.Label)) ∧
          ∀ l, mapGet? step "label" = some (.str l) →
            mapGet? c "label" = some (.str (l ++ " " ++ p.Label)) := by
  obtain ⟨out, hout⟩ :=
    generateProjectSteps_isSome rt allSteps step env projects henv hdeps hcopy
  have hall := generateProjectSteps_forall₂ rt allSteps step projects out hout
  refine ⟨out, hout, hall.length_eq.symm, ?_⟩
  intro i p hp
  obtain ⟨c, hc, f, hf, rfl⟩ := forall₂_getElem? hall i p hp
  have hlabel := (projectStep_fields rt allSteps step f p hf).1
  refine ⟨f, hc, hlabel, ?_⟩
  intro l hl
  rw [hlabel]
  simp [mapIndex, hl, sprintS]

/-- C1 (amended) at the step `Test` and the projects `Svc` (matching) and `web` (not
matching). -/
theorem C1_fanout_witness :
    ∃ out, generateProjectSteps asciiRuntime [.map stepBuild, .map stepTest] (.map stepTest)
        [projectWeb, projectSvc] = some out ∧
      out.length = (matchingProjects stepTest [projectWeb, projectSvc]).length ∧
      ∀ (i : Nat) (p : Project), (matchingProjects stepTest [projectWeb, projectSvc])[i]? = some p →
        ∃ c : Fields, out[i]? = some (Value.map c) ∧
          mapGet? c "label"
            = some (.str (sprintS asciiRuntime (mapIndex stepTest "label") ++ " " ++ p.Label)) ∧
          ∀ l, mapGet? stepTest "label" = some (.str l) →
            mapGet? c "label" = some (.str (l ++ " " ++ p.Label)) :=
  C1_fanout_one_clone_per_matching_project asciiRuntime [.map stepBuild, .map stepTest]
    stepTest [(.str "BUILDPIPE_SCOPE", .str "project")] [projectWeb, projectSvc] rfl rfl rfl

theorem string_append_left_cancel {a b c : String} (h : a ++ b = a ++ c) : b = c := by
  have h1 := congrArg String.data h
  simp only [String.data_append] at h1
  exact String.ext (List.append_cancel_left h1)

/-- C2: generateProjectSteps returns whenever the step record has an env mapping, its
depends_on entries are strings and no map inside it has a null or NaN key, and whenever
it returns: the clone for a matching project
has as key the source key (as `%s` renders it: the key itself when it is a string)
followed by ':' and the project's Label when the source has a key, and has no key when the
source has none; and for a source step that has a key, the clones for two matching
projects with different Labels have different keys. -/
theorem C2_clone_keys_differ_across_projects (rt : GoRuntime) (allSteps : List Value)
    (step : Fields) (projects : List Project) :
    (∀ env, mapGet? step "env" = some (.map env) → dependsOnStrings step = true →
      copyableKeys (.map step) = true →
      ∃ out, generateProjectSteps rt allSteps (.map step) projects = some out) ∧
    ∀ out, generateProjectSteps rt allSteps (.map step) projects = some out →
      (∀ (i : Nat) (p : Project), (matchingProjects step projects)[i]? = some p →
        ∃ c : Fields, out[i]? = some (Value.map c) ∧
          (∀ k, mapGet? step "key" = some k →
            mapGet? c "key" = some (.str (sprintS rt k ++ ":" ++ p.Label))) ∧
          (∀ s : String, mapGet? step "key" = some (.str s) →
            mapGet? c "key" = some (.str (s ++ ":" ++ p.Label))) ∧
          (mapGet? step "key" = none → mapGet? c "key" = none)) ∧
      ∀ (i j : Nat) (p q : Project) (ci cj : Fields),
        (matchingProjects step projects)[i]? = some p →
        (matchingProjects step projects)[j]? = some q →
        out[i]? = some (Value.map ci) → out[j]? = some (Value.map cj) →
        (mapGet? step "key").isSome = true → p.Label ≠ q.Label →
        mapGet? ci "key" ≠ mapGet? cj "key" := by
  refine ⟨fun env henv hdeps hcopy =>
    generateProjectSteps_isSome rt allSteps step env projects henv hdeps hcopy, ?_⟩
  intro out hout
  have hall := generateProjectSteps_forall₂ rt allSteps step projects out hout
  have key : ∀ (i : Nat) (p : Project), (matchingProjects step projects)[i]? = some p →
      ∃ c : Fields, out[i]? = some (Value.map c) ∧
        mapGet? c "key" = (mapGet? step "key").map
          (fun val => .str (sprintS rt val ++ ":" ++ p.Label)) := by
    intro i p hp
    obtain ⟨c, hc, f, hf, rfl⟩ := forall₂_getElem? hall i p hp
    exact ⟨f, hc, (projectStep_fields rt allSteps step f p hf).2.2⟩
  refine ⟨?_, ?_⟩
  · intro i p hp
    obtain ⟨c, hc, hk⟩ := key i p hp
    refine ⟨c, hc, ?_, ?_, ?_⟩
    · intro k hk'
      rw [hk, hk']
      rfl
    · intro s hk'
      rw [hk, hk']
      rfl
    · intro hk'
      rw [hk, hk']
      rfl
  · intro i j p q ci cj hp hq hci hcj hsome hne heq
    obtain ⟨c, hc, hk⟩ := key i p hp
    obtain ⟨d, hd, hk2⟩ := key j q hq
    rw [hci] at hc
    rw [hcj] at hd
    cases hc
    cases hd
    rw [hk, hk2] at heq
    obtain ⟨k, hk3⟩ := Option.isSome_iff_exists.mp hsome
    rw [hk3] at heq
    simp only [Option.map_some', Option.some.injEq, Value.str.injEq] at heq
    exact hne (string_append_left_cancel heq)

/-- C2 at the step `build` and the projects `Svc` and `svc`. -/
theorem C2_clone_keys_witness :
    generateProjectSteps asciiRuntime [] (.map stepBuild) [projectSvc, projectWeb, projectLowerSvc]
        = some [.map stepBuildSvc, .map stepBuildLowerSvc] ∧
      mapGet? stepBuildSvc "key" ≠ mapGet? stepBuildLowerSvc "key" :=
  ⟨rfl, (C2_clone_keys_differ_across_projects asciiRuntime [] stepBuild
    [projectSvc, projectWeb, projectLowerSvc]).2 [.map stepBuildSvc, .map stepBuildLowerSvc] rfl
    |>.2 0 1 projectSvc projectLowerSvc stepBuildSvc stepBuildLowerSvc rfl rfl rfl rfl rfl
      (by decide)⟩

/-! ## The pipeline expander -/

theorem generatePipelineLoop_cons (rt : GoRuntime) (penv : StrMap) (projects : List Project)
    (done rest : List Value) (s : Value) :
    generatePipelineLoop rt penv projects done (s :: rest) =
      match stepResult rt penv projects (done ++ mergedStep penv s :: rest) s with
      | some stepsHere =>
        match generatePipelineLoop rt penv projects (done ++ [mergedStep penv s]) rest with
        | some stepsAfter => some (stepsHere ++ stepsAfter)
        | none => none
      | none => none := by
  cases s <;> simp only [generatePipelineLoop, stepResult, mergedStep, expands] <;> rfl

theorem stepsAt_zero (penv : StrMap) (s : Value) (rest : List Value) :
    stepsAt penv (s :: rest) 0 = mergedStep penv s :: rest := by
  simp [stepsAt]

theorem stepsAt_succ (penv : StrMap) (s : Value) (rest : List Value) (j : Nat) :
    stepsAt penv (s :: rest) (j + 1) = mergedStep penv s :: stepsAt penv rest j := by
  simp [stepsAt]

/-- The loop returns the concatenation of the per-step results. -/
theorem generatePipelineLoop_eq_some_iff (rt : GoRuntime) (penv : StrMap)
    (projects : List Project) (done todo out : List Value) :
    generatePipelineLoop rt penv projects done todo = some out ↔
      ∃ parts : List (List Value), parts.length = todo.length ∧
        (∀ (j : Nat) (step : Value), todo[j]? = some step →
          stepResult rt penv projects (done ++ stepsAt penv todo j) step = parts[j]?) ∧
        out = parts.flatten := by
  induction todo generalizing done out with
  | nil =>
    simp only [generatePipelineLoop, Option.some.injEq, List.length_nil, List.length_eq_zero]
    constructor
    · rintro rfl
      exact ⟨[], rfl, by simp, rfl⟩
    · rintro ⟨parts, rfl, -, rfl⟩
      rfl
  | cons s rest ih =>
    rw [generatePipelineLoop_cons]
    constructor
    · intro h
      cases hh : stepResult rt penv projects (done ++ mergedStep penv s :: rest) s with
      | none => rw [hh] at h; cases h
      | some here =>
        cases ha : generatePipelineLoop rt penv projects (done ++ [mergedStep penv s]) rest with
        | none => rw [hh, ha] at h; cases h
        | some after =>
          rw [hh, ha] at h
          simp only [Option.some.injEq] at h
          obtain ⟨parts, hlen, hparts, hjoin⟩ := (ih _ _).mp ha
          refine ⟨here :: parts, by simp [hlen], ?_, by rw [← h, hjoin]; simp⟩
          intro j step hj
          cases j with
          | zero =>
            simp only [List.getElem?_cons_zero, Option.some.injEq] at hj
            subst hj
            simpa [stepsAt_zero] using hh
          | succ j =>
            simp only [List.getElem?_cons_succ] at hj
            have := hparts j step hj
            simpa [stepsAt_succ] using this
    · rintro ⟨parts, hlen, hparts, rfl⟩
      cases parts with
      | nil => simp at hlen
      | cons here parts =>
        have h0 := hparts 0 s (by simp)
        simp only [stepsAt_zero, List.getElem?_cons_zero] at h0
        have hrest : generatePipelineLoop rt penv projects (done ++ [mergedStep penv s]) rest
            = some parts.flatten := by
          refine (ih _ _).mpr ⟨parts, by simpa using hlen, ?_, rfl⟩
          intro j step hj
          have := hparts (j + 1) step (by simpa using hj)
          simpa [stepsAt_succ] using this
        rw [h0, hrest]
        simp

theorem generatePipeline_eq_some_iff (rt : GoRuntime) (steps : List Value) (penv : StrMap)
    (projects : List Project) (out : List Value) :
    generatePipeline rt steps penv projects = some ⟨out⟩ ↔
      ∃ parts, PipelineParts rt steps penv projects parts ∧ out = parts.flatten := by
  have h := generatePipelineLoop_eq_some_iff rt penv projects [] steps out
  simp only [List.nil_append] at h
  unfold generatePipeline PipelineParts
  constructor
  · intro hg
    cases hl : generatePipelineLoop rt penv projects [] steps with
    | none => rw [hl] at hg; cases hg
    | some o =>
      rw [hl] at hg
      simp only [Option.map_some', Option.some.injEq, Pipeline.mk.injEq] at hg
      subst hg
      obtain ⟨parts, h1, h2, h3⟩ := h.mp hl
      exact ⟨parts, ⟨h1, h2⟩, h3⟩
  · rintro ⟨parts, ⟨h1, h2⟩, h3⟩
    rw [h.mpr ⟨parts, h1, h2, h3⟩]
    rfl

theorem mergePipelineEnv_get_ne (penv : StrMap) (m : Fields) (name : String)
    (h : name ≠ "env") : mapGet? (mergePipelineEnv penv m).1 name = mapGet? m name := by
  unfold mergePipelineEnv
  split
  · rfl
  · exact mapGet?_mapSet_ne _ _ (Ne.symm h)

theorem stepEnv_eq_some (m env : Fields) (h : stepEnv m = some env) :
    mapGet? m "env" = some (.map env) := by
  unfold stepEnv at h
  split at h
  · rename_i e he
    simp only [Option.some.injEq] at h
    subst h
    exact he
  · cases h

theorem mergePipelineEnv_env (penv : StrMap) (m env : Fields)
    (h : (mergePipelineEnv penv m).2 = some env) :
    mapGet? (mergePipelineEnv penv m).1 "env" = some (.map env) := by
  unfold mergePipelineEnv at h ⊢
  split
  · rename_i hb
    rw [if_pos hb] at h
    exact stepEnv_eq_some m env h
  · rename_i hb
    rw [if_neg hb] at h
    simp only [Option.some.injEq] at h
    subst h
    exact mapGet?_mapSet_same _ _ _

theorem scopeIsProject_some (env : Option Fields) (h : scopeIsProject env = true) :
    ∃ e, env = some e := by
  cases env with
  | none => simp [scopeIsProject] at h
  | some e => exact ⟨e, rfl⟩

theorem expands_env (penv : StrMap) (step : Value) (h : expands penv step = true) :
    ∃ m env, step = .map m ∧ (mergePipelineEnv penv m).2 = some env ∧
      mapGet? (mergePipelineEnv penv m).1 "env" = some (.map env) := by
  cases step <;> simp [expands] at h
  rename_i m
  obtain ⟨e, he⟩ := scopeIsProject_some _ h
  exact ⟨m, e, rfl, he, mergePipelineEnv_env penv m e he⟩

theorem stepKey_mergedStep (penv : StrMap) (s : Value) :
    stepKey (mergedStep penv s) = stepKey s := by
  cases s <;> try rfl
  simp only [mergedStep, stepKey, stepFields, Option.some_bind]
  exact mergePipelineEnv_get_ne penv _ "key" (by decide)

theorem dependsOnStrings_merge (penv : StrMap) (m : Fields) :
    dependsOnStrings (mergePipelineEnv penv m).1 = dependsOnStrings m := by
  unfold dependsOnStrings
  rw [mergePipelineEnv_get_ne penv m "depends_on" (by decide)]

theorem copyableKeys_merge (penv : StrMap) (m : Fields)
    (h : copyableKeys (.map m) = true) :
    copyableKeys (.map (mergePipelineEnv penv m).1) = true := by
  unfold mergePipelineEnv
  split
  · exact h
  · apply copyableKeys_mapSet m "env" _ h
    apply copyableKeys_rangeAssign
    cases he : stepEnv m with
    | none => rfl
    | some e => exact copyableKeys_get m "env" _ h (stepEnv_eq_some m e he)

theorem stepResult_isSome (rt : GoRuntime) (penv : StrMap) (projects : List Project)
    (state : List Value) (step : Value)
    (h : ∀ m, step = .map m → dependsOnStrings m = true ∧ copyableKeys (.map m) = true) :
    ∃ stepsHere, stepResult rt penv projects state step = some stepsHere := by
  unfold stepResult
  by_cases he : expands penv step = true
  · obtain ⟨m, env, rfl, -, henv⟩ := expands_env penv step he
    rw [if_pos he]
    exact generateProjectSteps_isSome rt state _ env projects henv
      (by rw [dependsOnStrings_merge]; exact (h m rfl).1)
      (copyableKeys_merge penv m (h m rfl).2)
  · rw [if_neg he]
    exact ⟨_, rfl⟩

theorem generatePipelineLoop_isSome (rt : GoRuntime) (penv : StrMap) (projects : List Project)
    (done todo : List Value)
    (h : ∀ m, Value.map m ∈ todo →
      dependsOnStrings m = true ∧ copyableKeys (.map m) = true) :
    ∃ out, generatePipelineLoop rt penv projects done todo = some out := by
  induction todo generalizing done with
  | nil => exact ⟨[], rfl⟩
  | cons s rest ih =>
    obtain ⟨stepsHere, hh⟩ := stepResult_isSome rt penv projects
      (done ++ mergedStep penv s :: rest) s (fun m hm => h m (by simp [hm]))
    obtain ⟨stepsAfter, ha⟩ := ih (done ++ [mergedStep penv s])
      (fun m hm => h m (List.mem_cons_of_mem _ hm))
    exact ⟨stepsHere ++ stepsAfter, by rw [generatePipelineLoop_cons, hh, ha]⟩

/-- With string dependencies and no null or NaN map key in any record step,
`generatePipeline` returns. -/
theorem generatePipeline_isSome (rt : GoRuntime) (steps : List Value) (penv : StrMap)
    (projects : List Project)
    (h : ∀ m, Value.map m ∈ steps →
      dependsOnStrings m = true ∧ copyableKeys (.map m) = true) :
    ∃ out, generatePipeline rt steps penv projects = some ⟨out⟩ := by
  obtain ⟨out, hout⟩ := generatePipelineLoop_isSome rt penv projects [] steps h
  exact ⟨out, by simp [generatePipeline, hout]⟩

/-! ## Keys of the output -/

theorem takeWhile_no_colon (a : List Char) (h : ':' ∉ a) :
    a.takeWhile (fun c => c != ':') = a := by
  induction a with
  | nil => rfl
  | cons c cs ih =>
    simp only [List.mem_cons, not_or] at h
    have hc : (c != ':') = true := by
      simp only [bne_iff_ne, ne_eq]
      exact fun e => h.1 e.symm
    simp [List.takeWhile, hc, ih h.2]

theorem takeWhile_colon_append (a b : List Char) (h : ':' ∉ a) :
    (a ++ ':' :: b).takeWhile (fun c => c != ':') = a := by
  induction a with
  | nil => simp [List.takeWhile]
  | cons c cs ih =>
    simp only [List.mem_cons, not_or] at h
    have hc : (c != ':') = true := by
      simp only [bne_iff_ne, ne_eq]
      exact fun e => h.1 e.symm
    simp [List.takeWhile, hc, ih h.2]

theorem keyStem_self (s : String) (h : ':' ∉ s.data) : keyStem s = s := by
  unfold keyStem
  rw [takeWhile_no_colon _ h]

theorem keyStem_append (s l : String) (h : ':' ∉ s.data) : keyStem (s ++ ":" ++ l) = s := by
  unfold keyStem
  have : (s ++ ":" ++ l).data = s.data ++ ':' :: l.data := by
    simp [String.data_append]
  rw [this, takeWhile_colon_append _ _ h]

theorem keysOf_append (a b : List Value) : keysOf (a ++ b) = keysOf a ++ keysOf b := by
  simp [keysOf, List.filterMap_append]

theorem keysOf_clones (rt : GoRuntime) (steps : List Value) (m : Fields)
    (ps : List Project) (stepsHere : List Value)
    (h : List.Forall₂ (fun p c => ∃ f, projectStep rt steps m p = some f ∧ c = Value.map f)
      ps stepsHere) :
    keysOf stepsHere = ps.filterMap (fun p => (mapGet? m "key").map
      (fun val => Value.str (sprintS rt val ++ ":" ++ p.Label))) := by
  induction h with
  | nil => rfl
  | cons hr _ ih =>
    obtain ⟨f, hf, rfl⟩ := hr
    have hk := (projectStep_fields rt steps m f _ hf).2.2
    simp only [keysOf, List.filterMap_cons] at ih ⊢
    simp only [stepKey, stepFields, Option.some_bind, hk]
    cases hm : mapGet? m "key" with
    | none => simpa [hm] using ih
    | some k => simpa [hm] using ih

/-- The keys that one step contributes to the output. -/
theorem stepResult_keys (rt : GoRuntime) (penv : StrMap) (projects : List Project)
    (state : List Value) (step : Value) (stepsHere : List Value)
    (hkey : ∀ k, stepKey step = some k → ∃ s : String, k = .str s ∧ ':' ∉ s.data)
    (hlabels : (projects.map Project.Label).Nodup)
    (h : stepResult rt penv projects state step = some stepsHere) :
    (keysOf stepsHere).Nodup ∧
    ∀ k ∈ keysOf stepsHere, ∃ t : String, k = .str t ∧ stepKey step = some (.str (keyStem t)) := by
  unfold stepResult at h
  by_cases he : expands penv step = true
  · rw [if_pos he] at h
    obtain ⟨m, env, rfl, -, -⟩ := expands_env penv step he
    simp only [mergedStep] at h
    have hall := generateProjectSteps_forall₂ rt state _ projects stepsHere h
    have hk := keysOf_clones rt state _ _ _ hall
    rw [mergePipelineEnv_get_ne penv m "key" (by decide)] at hk
    cases hm : mapGet? m "key" with
    | none =>
      rw [hm] at hk
      have hnil : keysOf stepsHere = [] := by
        rw [hk]
        exact List.filterMap_eq_nil_iff.mpr (fun _ _ => rfl)
      rw [hnil]
      exact ⟨List.nodup_nil, by simp⟩
    | some k =>
      obtain ⟨sk, rfl, hsk⟩ := hkey k (by simp [stepKey, stepFields, hm])
      rw [hm] at hk
      simp only [Option.map_some', sprintS] at hk
      have hk2 : keysOf stepsHere = ((matchingProjects (mergePipelineEnv penv m).1 projects).map
          Project.Label).map (fun l => Value.str (sk ++ ":" ++ l)) := by
        rw [hk, List.map_map, ← List.filterMap_eq_map]
        rfl
      rw [hk2]
      constructor
      · apply List.Nodup.map
        · intro a b hab
          simp only [Value.str.injEq] at hab
          exact string_append_left_cancel hab
        · exact List.Nodup.sublist (List.Sublist.map _ (List.filter_sublist _)) hlabels
      · intro k hk3
        simp only [List.mem_map] at hk3
        obtain ⟨l, -, rfl⟩ := hk3
        exact ⟨_, rfl, by simp [stepKey, stepFields, hm, keyStem_append sk l hsk]⟩
  · rw [if_neg he] at h
    simp only [Option.some.injEq] at h
    subst h
    simp only [keysOf, List.filterMap_cons, List.filterMap_nil, stepKey_mergedStep]
    cases hk : stepKey step with
    | none => exact ⟨List.nodup_nil, by simp⟩
    | some k =>
      obtain ⟨sk, rfl, hsk⟩ := hkey k hk
      simp only [List.nodup_cons, List.not_mem_nil, not_false_eq_true, List.nodup_nil, and_self,
        List.mem_singleton, forall_eq, true_and]
      exact ⟨sk, rfl, by rw [keyStem_self sk hsk]⟩

theorem generatePipelineLoop_keys (rt : GoRuntime) (penv : StrMap) (projects : List Project)
    (done todo out : List Value)
    (hnodup : (keysOf todo).Nodup)
    (hkeys : ∀ k ∈ keysOf todo, ∃ s : String, k = .str s ∧ ':' ∉ s.data)
    (hlabels : (projects.map Project.Label).Nodup)
    (h : generatePipelineLoop rt penv projects done todo = some out) :
    (keysOf out).Nodup ∧
    ∀ k ∈ keysOf out, ∃ t : String, k = .str t ∧ Value.str (keyStem t) ∈ keysOf todo := by
  induction todo generalizing done out with
  | nil =>
    simp only [generatePipelineLoop, Option.some.injEq] at h
    subst h
    exact ⟨List.nodup_nil, by simp [keysOf]⟩
  | cons s rest ih =>
    rw [generatePipelineLoop_cons] at h
    cases hh : stepResult rt penv projects (done ++ mergedStep penv s :: rest) s with
    | none => rw [hh] at h; cases h
    | some stepsHere =>
      cases ha : generatePipelineLoop rt penv projects (done ++ [mergedStep penv s]) rest with
      | none => rw [hh, ha] at h; cases h
      | some stepsAfter =>
        rw [hh, ha] at h
        simp only [Option.some.injEq] at h
        subst h
        have hcons : keysOf (s :: rest) = (stepKey s).toList ++ keysOf rest := by
          simp only [keysOf, List.filterMap_cons]
          cases stepKey s <;> rfl
        rw [hcons] at hnodup hkeys
        have hrest_nodup : (keysOf rest).Nodup := (List.nodup_append.mp hnodup).2.1
        obtain ⟨hn1, hk1⟩ := stepResult_keys rt penv projects _ s stepsHere
          (fun k hk => hkeys k (by simp [hk])) hlabels hh
        obtain ⟨hn2, hk2⟩ := ih (done ++ [mergedStep penv s]) stepsAfter hrest_nodup
          (fun k hk => hkeys k (by simp [hk])) ha
        rw [keysOf_append, hcons]
        refine ⟨List.nodup_append.mpr ⟨hn1, hn2, ?_⟩, ?_⟩
        · intro k hkh hka
          obtain ⟨t, rfl, ht⟩ := hk1 k hkh
          obtain ⟨t2, ht2, hmem⟩ := hk2 _ hka
          simp only [Value.str.injEq] at ht2
          subst ht2
          have hd := (List.nodup_append.mp hnodup).2.2
          exact hd (by simp [ht]) hmem
        · intro k hk
          rcases List.mem_append.mp hk with hk | hk
          · obtain ⟨t, rfl, ht⟩ := hk1 k hk
            exact ⟨t, rfl, by simp [ht]⟩
          · obtain ⟨t, rfl, ht⟩ := hk2 k hk
            exact ⟨t, rfl, by simp [ht]⟩

/-- C3 (as stated) fails: the pipeline-level step `Deploy` has key `build:Svc`, the
project-scoped step `Build` has key `build`, and the only project is `Svc`.  The input keys
are distinct and so are the Labels, yet the clone of `Build` gets the key `build:Svc` that
`Deploy` already has. -/
theorem C3_counterexample_key_with_colon :
    (keysOf [.map stepDeploy, .map stepBuild]).Nodup ∧
    ([projectSvc].map Project.Label).Nodup ∧
    ∃ p, generatePipeline asciiRuntime [.map stepDeploy, .map stepBuild] noPipelineEnv
        [projectSvc] = some p ∧
      keysOf p.Steps = [.str "build:Svc", .str "build:Svc"] ∧ ¬ (keysOf p.Steps).Nodup := by
  refine ⟨?_, by decide, ⟨[.map (mapSet stepDeploy "env" (.map [])), .map stepBuildSvc]⟩,
    rfl, rfl, ?_⟩
  · have : keysOf [.map stepDeploy, .map stepBuild] = [.str "build:Svc", .str "build"] := rfl
    rw [this]
    simp
  · have : keysOf [Value.map (mapSet stepDeploy "env" (.map [])), Value.map stepBuildSvc]
        = [.str "build:Svc", .str "build:Svc"] := rfl
    rw [this]
    simp

/-- C3 (amended): when the keys of the input steps are pairwise distinct strings with no
':' in them and the Labels of the projects are pairwise distinct, generatePipeline returns
(given string dependencies and no null or NaN map key inside a record step) and the
keys of the steps of its output are pairwise distinct. -/
theorem C3_output_keys_distinct (rt : GoRuntime) (steps : List Value) (penv : StrMap)
    (projects : List Project)
    (hnodup : (keysOf steps).Nodup)
    (hkeys : ∀ k ∈ keysOf steps, ∃ s : String, k = .str s ∧ ':' ∉ s.data)
    (hlabels : (projects.map Project.Label).Nodup) :
    ((∀ m, Value.map m ∈ steps →
        dependsOnStrings m = true ∧ copyableKeys (.map m) = true) →
      ∃ p, generatePipeline rt steps penv projects = some p) ∧
    ∀ p, generatePipeline rt steps penv projects = some p → (keysOf p.Steps).Nodup := by
  constructor
  · intro hdeps
    obtain ⟨out, hout⟩ := generatePipeline_isSome rt steps penv projects hdeps
    exact ⟨_, hout⟩
  · intro p hp
    unfold generatePipeline at hp
    cases hl : generatePipelineLoop rt penv projects [] steps with
    | none => rw [hl] at hp; cases hp
    | some out =>
      rw [hl] at hp
      simp only [Option.map_some', Option.some.injEq] at hp
      subst hp
      exact (generatePipelineLoop_keys rt penv projects [] steps out hnodup hkeys hlabels hl).1

/-- C3 (amended) at the steps `Build` and `Test` and the projects `Svc` and `svc`. -/
theorem C3_output_keys_distinct_witness :
    ∃ p, generatePipeline asciiRuntime [.map stepBuild, .map stepTest] noPipelineEnv
        [projectSvc, projectLowerSvc] = some p ∧ (keysOf p.Steps).Nodup := by
  have h := C3_output_keys_distinct asciiRuntime [.map stepBuild, .map stepTest] noPipelineEnv
    [projectSvc, projectLowerSvc]
    (by
      have : keysOf [.map stepBuild, .map stepTest] = [.str "build"] := rfl
      rw [this]
      simp)
    (by
      have : keysOf [.map stepBuild, .map stepTest] = [.str "build"] := rfl
      rw [this]
      intro k hk
      simp only [List.mem_singleton] at hk
      exact ⟨"build", hk, by decide⟩)
    (by decide)
  obtain ⟨p, hp⟩ := h.1 (by
    intro m hm
    simp only [List.mem_cons, Value.map.injEq, List.mem_singleton, List.not_mem_nil,
      or_false] at hm
    rcases hm with rfl | rfl <;> exact ⟨rfl, rfl⟩)
  exact ⟨p, hp, h.2 p hp⟩

/-! ## Dependencies of the clones -/

theorem findStepByKey_eq_none_iff (steps : List Value) (d : String) :
    findStepByKey steps d = none ↔
      ∀ m, Value.map m ∈ steps → mapGet? m "key" ≠ some (.str d) := by
  induction steps with
  | nil => simp [findStepByKey]
  | cons s rest ih =>
    cases s with
    | map m =>
      simp only [findStepByKey, List.mem_cons, Value.map.injEq, forall_eq_or_imp]
      cases hk : mapGet? m "key" with
      | none => simpa using ih
      | some k =>
        cases k with
        | str f =>
          by_cases hdf : d = f
          · subst hdf
            simp
          · simp only [hdf, if_false, ih, ne_eq, Option.some.injEq, Value.str.injEq]
            constructor
            · intro h
              exact ⟨fun e => hdf e.symm, h⟩
            · intro h
              exact h.2
        | _ => simpa using ih
    | _ => simpa [findStepByKey] using ih

theorem rewriteDependency_str (steps : List Value) (p : Project) (d : String) (o : Value)
    (h : rewriteDependency steps p (.str d) = some o) :
    ((∃ s, findStepByKey steps d = some s ∧ isProjectScopeStep s = true) →
      o = .str (d ++ ":" ++ p.Label)) ∧
    ((∀ m, Value.map m ∈ steps → mapGet? m "key" ≠ some (.str d)) → o = .str d) ∧
    ((∃ s, findStepByKey steps d = some s ∧ isProjectScopeStep s = false) → o = .str d) := by
  unfold rewriteDependency at h
  simp only at h
  refine ⟨?_, ?_, ?_⟩
  · rintro ⟨s, hs, hp⟩
    rw [hs] at h
    simp only [hp, if_true, Option.some.injEq] at h
    exact h.symm
  · intro hno
    rw [(findStepByKey_eq_none_iff steps d).mpr hno] at h
    simp only [Option.some.injEq] at h
    exact h.symm
  · rintro ⟨s, hs, hp⟩
    rw [hs] at h
    simp only [hp, Bool.false_eq_true, if_false, Option.some.injEq] at h
    exact h.symm

theorem rewriteDependency_rewritten (steps : List Value) (p : Project) (d : String)
    (o : Value) (h : rewriteDependency steps p (.str d) = some o) :
    DependencyRewritten steps p d (some o) := by
  obtain ⟨h1, h2, h3⟩ := rewriteDependency_str steps p d o h
  exact ⟨fun hs => by rw [h1 hs], fun hs => by rw [h2 hs], fun hs => by rw [h3 hs]⟩

/-- C4: generateProjectSteps returns whenever the step record has an env mapping, string
dependencies and no null or NaN map key inside, and whenever it returns, the clone for a
matching project `p` of a source with a depends_on value has a list as depends_on.  When
the source value is a list, the clone's list is as long, and at the place of each string
`d` of the source list it has `d`, ':' and `p`'s Label when findStepByKey finds a step for
`d` in allSteps that is project-scoped, and `d` when no record of allSteps has key `d` or
the step found is not project-scoped.  When the source value is a bare string `d`, the
clone's list has one entry, rewritten in the same way.  In particular the clone of `Test`
(depends_on `build`) for the project `svc`, with the project-scoped step `Build` (key
`build`) in allSteps, has depends_on `["build:svc"]`. -/
theorem C4_clone_dependencies_rewritten (rt : GoRuntime) (allSteps : List Value)
    (step : Fields) (projects : List Project) :
    (∀ env, mapGet? step "env" = some (.map env) → dependsOnStrings step = true →
      copyableKeys (.map step) = true →
      ∃ out, generateProjectSteps rt allSteps (.map step) projects = some out) ∧
    (∀ out, generateProjectSteps rt allSteps (.map step) projects = some out →
      ∀ (i : Nat) (p : Project) (val : Value),
        (matchingProjects step projects)[i]? = some p →
        mapGet? step "depends_on" = some val →
        ∃ (c : Fields) (ds : List Value), out[i]? = some (Value.map c) ∧
          mapGet? c "depends_on" = some (.list ds) ∧
          (∀ xs : List Value, val = .list xs →
            ds.length = xs.length ∧
            ∀ (j : Nat) (d : String), xs[j]? = some (.str d) →
              DependencyRewritten allSteps p d ds[j]?) ∧
          (∀ d : String, val = .str d →
            ds.length = 1 ∧ DependencyRewritten allSteps p d ds[0]?)) ∧
    ∃ c : Fields, generateProjectSteps rt [.map stepBuild, .map stepTest] (.map stepTest)
        [projectLowerSvc] = some [.map c] ∧
      mapGet? c "depends_on" = some (.list [.str "build:svc"]) := by
  refine ⟨fun env henv hdeps hcopy =>
    generateProjectSteps_isSome rt allSteps step env projects henv hdeps hcopy, ?_, ?_⟩
  · intro out hout i p val hp hval
    have hall := generateProjectSteps_forall₂ rt allSteps step projects out hout
    obtain ⟨c, hc, f, hf, rfl⟩ := forall₂_getElem? hall i p hp
    rcases projectStep_dependsOn rt allSteps step f p hf with ⟨hnone, -⟩ | ⟨v, ds, hv, hds, hget⟩
    · rw [hnone] at hval
      cases hval
    · rw [hv] at hval
      cases hval
      have hfa := (rewriteDependencies_eq_some_iff allSteps p _ ds).mp hds
      refine ⟨f, ds, hc, hget, ?_, ?_⟩
      · rintro xs rfl
        have hfa2 : List.Forall₂ (fun d o => rewriteDependency allSteps p d = some o) xs ds :=
          hfa
        refine ⟨hfa2.length_eq.symm, ?_⟩
        intro j d hj
        obtain ⟨o, ho, hr⟩ := forall₂_getElem? hfa2 j _ hj
        rw [ho]
        exact rewriteDependency_rewritten allSteps p d o hr
      · rintro d rfl
        have hfa2 : List.Forall₂ (fun d o => rewriteDependency allSteps p d = some o)
            [Value.str d] ds := hfa
        refine ⟨hfa2.length_eq.symm, ?_⟩
        obtain ⟨o, ho, hr⟩ := forall₂_getElem? hfa2 0 (.str d) rfl
        rw [ho]
        exact rewriteDependency_rewritten allSteps p d o hr
  · exact ⟨_, rfl, rfl⟩

/-- C4 at the steps `Build` and `Test` and the project `svc`, with the dependencies of
`Test` given as the list `[build, lint]`: the clone has two dependencies, `build:svc` for
the project-scoped `build` and `lint` for the key that no step has. -/
theorem C4_clone_dependencies_witness :
    ∃ (out : List Value) (c : Fields) (ds : List Value),
      generateProjectSteps asciiRuntime [.map stepBuild, .map stepTestList] (.map stepTestList)
        [projectWeb, projectLowerSvc] = some out ∧
      out[0]? = some (Value.map c) ∧
      mapGet? c "depends_on" = some (.list ds) ∧ ds.length = 2 ∧
      ds[0]? = some (.str "build:svc") ∧ ds[1]? = some (.str "lint") := by
  obtain ⟨out, hout⟩ := (C4_clone_dependencies_rewritten asciiRuntime
    [.map stepBuild, .map stepTestList] stepTestList [projectWeb, projectLowerSvc]).1
    [(.str "BUILDPIPE_SCOPE", .str "project")] rfl rfl rfl
  obtain ⟨c, ds, hc, hget, hlist, -⟩ := (C4_clone_dependencies_rewritten asciiRuntime
    [.map stepBuild, .map stepTestList] stepTestList [projectWeb, projectLowerSvc]).2.1 out hout
    0 projectLowerSvc (.list [.str "build", .str "lint"]) rfl rfl
  obtain ⟨hlen, hrw⟩ := hlist _ rfl
  have h0 := (hrw 0 "build" rfl).1 ⟨stepBuild, rfl, rfl⟩
  have h1 := (hrw 1 "lint" rfl).2.1 (by
    intro m hm
    simp only [List.mem_cons, Value.map.injEq, List.mem_singleton, List.not_mem_nil,
      or_false] at hm
    rcases hm with rfl | rfl
    · intro h
      have hk : mapGet? stepBuild "key" = some (.str "build") := rfl
      rw [hk] at h
      simp at h
    · intro h
      have hk : mapGet? stepTestList "key" = none := rfl
      rw [hk] at h
      cases h)
  exact ⟨out, c, ds, hout, hc, hget, hlen, h0, h1⟩

/-! ## Clones in the output of the expander -/

theorem forall₂_getElem?_right {α β : Type} {R : α → β → Prop} {xs : List α} {ys : List β}
    (h : List.Forall₂ R xs ys) (i : Nat) (y : β) (hy : ys[i]? = some y) :
    ∃ x, xs[i]? = some x ∧ R x y := by
  induction h generalizing i with
  | nil => simp at hy
  | cons hr _ ih =>
    cases i with
    | zero =>
      simp only [List.getElem?_cons_zero, Option.some.injEq] at hy
      subst hy
      exact ⟨_, by simp, hr⟩
    | succ j =>
      simp only [List.getElem?_cons_succ] at hy
      obtain ⟨x, hx, hxy⟩ := ih j hy
      exact ⟨x, by simpa using hx, hxy⟩

/-- The part of an expanded step is the result of the step cloner on the merged step. -/
theorem pipelineParts_expanded (rt : GoRuntime) (steps : List Value) (penv : StrMap)
    (projects : List Project) (parts : List (List Value))
    (hparts : PipelineParts rt steps penv projects parts) (i : Nat) (m : Fields)
    (hi : steps[i]? = some (.map m)) (he : expands penv (.map m) = true) :
    ∃ part, parts[i]? = some part ∧
      List.Forall₂ (fun p c => ∃ f, projectStep rt (stepsAt penv steps i)
          (mergePipelineEnv penv m).1 p = some f ∧ c = Value.map f)
        (matchingProjects (mergePipelineEnv penv m).1 projects) part := by
  have h := hparts.2 i _ hi
  have hlt : i < parts.length := by
    rw [hparts.1]
    exact (List.getElem?_eq_some_iff.mp hi).1
  have hsome : parts[i]? = some parts[i] := List.getElem?_eq_getElem hlt
  rw [hsome] at h
  unfold stepResult at h
  rw [if_pos he] at h
  exact ⟨parts[i], hsome, generateProjectSteps_forall₂ rt _ _ projects _ h⟩

/-- The part of an expanded step, as the call of the step cloner that makes it. -/
theorem pipelineParts_expanded_call (rt : GoRuntime) (steps : List Value) (penv : StrMap)
    (projects : List Project) (parts : List (List Value))
    (hparts : PipelineParts rt steps penv projects parts) (i : Nat) (m : Fields)
    (hi : steps[i]? = some (.map m)) (he : expands penv (.map m) = true) :
    ∃ part, parts[i]? = some part ∧
      generateProjectSteps rt (stepsAt penv steps i) (.map (mergePipelineEnv penv m).1)
        projects = some part := by
  have h := hparts.2 i _ hi
  have hlt : i < parts.length := by
    rw [hparts.1]
    exact (List.getElem?_eq_some_iff.mp hi).1
  have hsome : parts[i]? = some parts[i] := List.getElem?_eq_getElem hlt
  rw [hsome] at h
  unfold stepResult at h
  rw [if_pos he] at h
  exact ⟨parts[i], hsome, h⟩

/-- The part of a step that is not expanded is the merged step alone. -/
theorem pipelineParts_passthrough (rt : GoRuntime) (steps : List Value) (penv : StrMap)
    (projects : List Project) (parts : List (List Value))
    (hparts : PipelineParts rt steps penv projects parts) (i : Nat) (step : Value)
    (hi : steps[i]? = some step) (he : expands penv step = false) :
    parts[i]? = some [mergedStep penv step] := by
  have h := hparts.2 i _ hi
  unfold stepResult at h
  rw [he] at h
  exact h.symm

/-- The env of a clone after the project's variables are written over it. -/
theorem cloneEnv_project_value (p : Project) (env : Fields) (name value : String)
    (h : (name, value) ∈ p.Env.entries) :
    mapGet? (rangeAssign p.Env
      (mapSet (mapSet env "BUILDPIPE_PROJECT_LABEL" (.str p.Label))
        "BUILDPIPE_PROJECT_PATH" (.str p.mainPath))) name = some (.str value) :=
  mapGet?_rangeAssign_mem _ _ _ _ h

/-- C5: generatePipeline returns whenever all dependencies are strings and no record
step has a null or NaN map key inside, and whenever it
returns, its output is the concatenation of the per-step parts, and for every expanded
step, every project matching it and every variable name that both pipelineEnv and the
project's Env set, the clone of that step for that project has an env that maps the name
to the project's value, and so not to the pipeline's value when the two differ. -/
theorem C5_project_env_overrides_pipeline_env (rt : GoRuntime) (steps : List Value)
    (penv : StrMap) (projects : List Project) :
    ((∀ m, Value.map m ∈ steps →
        dependsOnStrings m = true ∧ copyableKeys (.map m) = true) →
      ∃ p, generatePipeline rt steps penv projects = some p) ∧
    ∀ out, generatePipeline rt steps penv projects = some ⟨out⟩ →
      ∃ parts, PipelineParts rt steps penv projects parts ∧ out = parts.flatten ∧
        ∀ (i k : Nat) (m : Fields) (proj : Project) (name pipelineValue projectValue : String),
          steps[i]? = some (.map m) → expands penv (.map m) = true →
          (matchingProjects (mergePipelineEnv penv m).1 projects)[k]? = some proj →
          (name, pipelineValue) ∈ penv.entries → (name, projectValue) ∈ proj.Env.entries →
          ∃ (part : List Value) (c env : Fields), parts[i]? = some part ∧
            part[k]? = some (Value.map c) ∧ mapGet? c "env" = some (.map env) ∧
            mapGet? env name = some (.str projectValue) ∧
            (projectValue ≠ pipelineValue →
              mapGet? env name ≠ some (.str pipelineValue)) := by
  constructor
  · intro hdeps
    obtain ⟨out, hout⟩ := generatePipeline_isSome rt steps penv projects hdeps
    exact ⟨_, hout⟩
  · intro out hout
    obtain ⟨parts, hparts, hflat⟩ :=
      (generatePipeline_eq_some_iff rt steps penv projects out).mp hout
    refine ⟨parts, hparts, hflat, ?_⟩
    intro i k m proj name pv v hi he hk _ hv
    obtain ⟨part, hpart, hall⟩ := pipelineParts_expanded rt steps penv projects parts hparts i m hi he
    obtain ⟨c, hc, f, hf, rfl⟩ := forall₂_getElem? hall k proj hk
    obtain ⟨env, -, henv⟩ := (projectStep_fields rt _ _ f proj hf).2.1
    have hval := cloneEnv_project_value proj env name v hv
    refine ⟨part, f, _, hpart, hc, henv, hval, ?_⟩
    intro hne heq
    rw [hval] at heq
    simp only [Option.some.injEq, Value.str.injEq] at heq
    exact hne heq

/-- C5 at the step `Build`, the pipeline env with `TIER=shared` and the project `Svc` with
`TIER=backend`: the clone has `TIER=backend`. -/
theorem C5_project_env_witness :
    ∃ (out : List Value) (parts : List (List Value)) (part : List Value) (c env : Fields),
      generatePipeline asciiRuntime [.map stepLint, .map stepBuild] pipelineEnvRegion
        [projectSvc] = some ⟨out⟩ ∧
      out = parts.flatten ∧ parts[1]? = some part ∧ part[0]? = some (Value.map c) ∧
      mapGet? c "env" = some (.map env) ∧ mapGet? env "TIER" = some (.str "backend") := by
  obtain ⟨⟨out⟩, hout⟩ := (C5_project_env_overrides_pipeline_env asciiRuntime
    [.map stepLint, .map stepBuild] pipelineEnvRegion [projectSvc]).1 (by
      intro m hm
      simp only [List.mem_cons, Value.map.injEq, List.mem_singleton, List.not_mem_nil,
        or_false] at hm
      rcases hm with rfl | rfl <;> exact ⟨rfl, rfl⟩)
  obtain ⟨parts, -, hflat, h⟩ := (C5_project_env_overrides_pipeline_env asciiRuntime
    [.map stepLint, .map stepBuild] pipelineEnvRegion [projectSvc]).2 out hout
  obtain ⟨part, c, env, h1, h2, h3, h4, -⟩ := h 1 0 stepBuild projectSvc "TIER" "shared"
    "backend" rfl rfl rfl (by decide) (by decide)
  exact ⟨out, parts, part, c, env, hout, hflat, h1, h2, h3, h4⟩

/-! ## The pipeline env merge -/

theorem mergePipelineEnv_nonblock (penv : StrMap) (m : Fields) (hb : foundBlockStep m = false) :
    mergePipelineEnv penv m =
      (mapSet m "env" (.map (rangeAssign penv ((stepEnv m).getD []))),
        some (rangeAssign penv ((stepEnv m).getD []))) := by
  unfold mergePipelineEnv
  simp [hb]

/-- C6 (as stated) fails: the step `Lint` is not a block step and sets `REGION=us` itself,
pipelineEnv sets `REGION=eu`, and the step comes out with `REGION=eu`. -/
theorem C6_counterexample_step_value_overwritten :
    foundBlockStep stepLint = false ∧
    stepEnv stepLint = some [(.str "REGION", .str "us")] ∧
    pipelineEnvRegion.get? "REGION" = some "eu" ∧
    ∃ (c env : Fields), generatePipeline asciiRuntime [.map stepLint] pipelineEnvRegion []
        = some ⟨[.map c]⟩ ∧
      mapGet? c "env" = some (.map env) ∧ mapGet? env "REGION" = some (.str "eu") ∧
      mapGet? env "REGION" ≠ some (.str "us") := by
  refine ⟨rfl, rfl, rfl, _, _, rfl, rfl, rfl, ?_⟩
  intro h
  have heu : mapGet? (rangeAssign pipelineEnvRegion ((stepEnv stepLint).getD [])) "REGION"
      = some (.str "eu") := rfl
  rw [heu] at h
  simp at h

/-- C6 (amended): generatePipeline returns whenever all dependencies are strings and no record
step has a null or NaN map key inside, and
whenever it returns, every record step that is not a block step gets the pipeline-level
value for every name that pipelineEnv sets, over any value of its own.  When the step is
not expanded, it is in the output with an env that maps each name of pipelineEnv to the
pipeline-level value and every other name to what the step's own env maps it to.  When it
is expanded, each clone has an env that maps each name of pipelineEnv to the
pipeline-level value, unless the project's Env sets that name or the name is
BUILDPIPE_PROJECT_LABEL or BUILDPIPE_PROJECT_PATH. -/
theorem C6_pipeline_env_overwrites_step_env (rt : GoRuntime) (steps : List Value)
    (penv : StrMap) (projects : List Project) :
    ((∀ m, Value.map m ∈ steps →
        dependsOnStrings m = true ∧ copyableKeys (.map m) = true) →
      ∃ p, generatePipeline rt steps penv projects = some p) ∧
    ∀ out, generatePipeline rt steps penv projects = some ⟨out⟩ →
      ∃ parts, PipelineParts rt steps penv projects parts ∧ out = parts.flatten ∧
        ∀ (i : Nat) (m : Fields), steps[i]? = some (.map m) → foundBlockStep m = false →
          (expands penv (.map m) = false →
            ∃ (c env : Fields), parts[i]? = some [Value.map c] ∧
              mapGet? c "env" = some (.map env) ∧
              (∀ (name value : String), (name, value) ∈ penv.entries →
                mapGet? env name = some (.str value)) ∧
              (∀ name : String, name ∉ penv.entries.map Prod.fst →
                mapGet? env name = mapGet? ((stepEnv m).getD []) name)) ∧
          (expands penv (.map m) = true →
            ∃ part : List Value, parts[i]? = some part ∧
              ∀ (k : Nat) (v : Value), part[k]? = some v →
                ∃ (proj : Project) (c env : Fields),
                  (matchingProjects (mergePipelineEnv penv m).1 projects)[k]? = some proj ∧
                  v = Value.map c ∧ mapGet? c "env" = some (.map env) ∧
                  ∀ (name value : String), (name, value) ∈ penv.entries →
                    name ∉ proj.Env.entries.map Prod.fst →
                    name ≠ "BUILDPIPE_PROJECT_LABEL" → name ≠ "BUILDPIPE_PROJECT_PATH" →
                    mapGet? env name = some (.str value)) := by
  constructor
  · intro hdeps
    obtain ⟨out, hout⟩ := generatePipeline_isSome rt steps penv projects hdeps
    exact ⟨_, hout⟩
  · intro out hout
    obtain ⟨parts, hparts, hflat⟩ :=
      (generatePipeline_eq_some_iff rt steps penv projects out).mp hout
    refine ⟨parts, hparts, hflat, ?_⟩
    intro i m hi hb
    have hmerge := mergePipelineEnv_nonblock penv m hb
    constructor
    · intro he
      have hpart := pipelineParts_passthrough rt steps penv projects parts hparts i _ hi he
      refine ⟨(mergePipelineEnv penv m).1, rangeAssign penv ((stepEnv m).getD []), hpart, ?_,
        ?_, ?_⟩
      · rw [hmerge]
        exact mapGet?_mapSet_same _ _ _
      · intro name value hmem
        exact mapGet?_rangeAssign_mem penv _ name value hmem
      · intro name hnot
        exact mapGet?_rangeAssign_not_mem penv _ name hnot
    · intro he
      obtain ⟨part, hpart, hall⟩ :=
        pipelineParts_expanded rt steps penv projects parts hparts i m hi he
      refine ⟨part, hpart, ?_⟩
      intro k v hv
      obtain ⟨proj, hproj, f, hf, rfl⟩ := forall₂_getElem?_right hall k v hv
      obtain ⟨env, henv0, henv⟩ := (projectStep_fields rt _ _ f proj hf).2.1
      refine ⟨proj, f, _, hproj, rfl, henv, ?_⟩
      intro name value hmem hnot hl hp
      rw [mapGet?_rangeAssign_not_mem _ _ _ hnot, mapGet?_mapSet_ne _ _ (Ne.symm hp),
        mapGet?_mapSet_ne _ _ (Ne.symm hl)]
      rw [hmerge] at henv0
      simp only [mapGet?_mapSet_same, Option.some.injEq, Value.map.injEq] at henv0
      rw [← henv0]
      exact mapGet?_rangeAssign_mem penv _ name value hmem

/-- C6 (amended) at the step `Lint` (`REGION=us`) and the pipeline env with `REGION=eu`:
the step comes out with `REGION=eu`. -/
theorem C6_pipeline_env_overwrites_witness :
    ∃ (parts : List (List Value)) (c env : Fields),
      parts[0]? = some [Value.map c] ∧ mapGet? c "env" = some (.map env) ∧
      mapGet? env "REGION" = some (.str "eu") := by
  obtain ⟨parts, -, -, h⟩ := (C6_pipeline_env_overwrites_step_env asciiRuntime [.map stepLint]
    pipelineEnvRegion [projectSvc]).2 [.map (mergePipelineEnv pipelineEnvRegion stepLint).1] rfl
  obtain ⟨c, env, h1, h2, h3, -⟩ := (h 0 stepLint rfl rfl).1 rfl
  exact ⟨parts, c, env, h1, h2, h3 "REGION" "eu" (by decide)⟩

/-! ## Steps that are not expanded -/

theorem scopeIsProject_stepEnv (m : Fields) :
    scopeIsProject (stepEnv m) = isProjectScopeStep m := by
  unfold stepEnv isProjectScopeStep
  split <;> rfl

theorem expands_eq_isProjectScopeStep (penv : StrMap) (m : Fields) :
    expands penv (.map m) = isProjectScopeStep (mergePipelineEnv penv m).1 := by
  simp only [expands]
  rw [← scopeIsProject_stepEnv]
  congr 1
  unfold mergePipelineEnv
  split
  · rfl
  · simp [stepEnv, mapGet?_mapSet_same]

theorem generatePipelineLoop_no_expansion (rt : GoRuntime) (penv : StrMap)
    (projects : List Project) (done todo : List Value)
    (h : ∀ step ∈ todo, expands penv step = false) :
    generatePipelineLoop rt penv projects done todo = some (todo.map (mergedStep penv)) := by
  induction todo generalizing done with
  | nil => rfl
  | cons s rest ih =>
    rw [generatePipelineLoop_cons, ih _ (fun step hs => h step (List.mem_cons_of_mem _ hs))]
    simp [stepResult, h s (List.mem_cons_self _ _)]

theorem mergePipelineEnv_shape (penv : StrMap) (m : Fields) :
    (mergePipelineEnv penv m).1 = m ∨
      ∃ env, (mergePipelineEnv penv m).1 = mapSet m "env" (.map env) := by
  unfold mergePipelineEnv
  split
  · exact Or.inl rfl
  · exact Or.inr ⟨_, rfl⟩

/-- C7: when no record step of the list has env.BUILDPIPE_SCOPE equal to "project" after
the pipeline-env merge, generatePipeline returns, for every project list, the same list
`out`: it is as long as the input, and its i-th step is the i-th input step itself when that
is not a record, and otherwise a record that is the input record or the input record with
only its `env` entry written, so that every field other than `env` reads as in the
input. -/
theorem C7_passthrough_independent_of_projects (rt : GoRuntime) (steps : List Value)
    (penv : StrMap)
    (hscope : ∀ m, Value.map m ∈ steps → isProjectScopeStep (mergePipelineEnv penv m).1 = false) :
    ∃ out : List Value,
      (∀ projects, generatePipeline rt steps penv projects = some ⟨out⟩) ∧
      out.length = steps.length ∧
      ∀ (i : Nat) (step : Value), steps[i]? = some step →
        ∃ o, out[i]? = some o ∧
          ((∀ m, step ≠ Value.map m) → o = step) ∧
          ∀ m, step = Value.map m →
            ∃ c : Fields, o = Value.map c ∧
              (c = m ∨ ∃ env, c = mapSet m "env" (.map env)) ∧
              ∀ name : String, name ≠ "env" → mapGet? c name = mapGet? m name := by
  have hno : ∀ step ∈ steps, expands penv step = false := by
    intro step hs
    cases step with
    | map m => rw [expands_eq_isProjectScopeStep]; exact hscope m hs
    | _ => rfl
  refine ⟨steps.map (mergedStep penv), ?_, by simp, ?_⟩
  · intro projects
    simp [generatePipeline, generatePipelineLoop_no_expansion rt penv projects [] steps hno]
  · intro i step hi
    refine ⟨mergedStep penv step, by simp [hi], ?_, ?_⟩
    · intro hnot
      cases step with
      | map m => exact absurd rfl (hnot m)
      | _ => rfl
    · rintro m rfl
      exact ⟨_, rfl, mergePipelineEnv_shape penv m,
        fun name hne => mergePipelineEnv_get_ne penv m name hne⟩

/-- C7 at the steps `Lint` and a bare `wait` marker with the pipeline env that sets
`REGION` and `TIER`: the output does not depend on the projects. -/
theorem C7_passthrough_witness :
    ∃ out : List Value,
      (∀ projects, generatePipeline asciiRuntime [.map stepLint, .str "wait"] pipelineEnvRegion
        projects = some ⟨out⟩) ∧
      out.length = 2 ∧ out[1]? = some (.str "wait") := by
  obtain ⟨out, h1, h2, h3⟩ := C7_passthrough_independent_of_projects asciiRuntime
    [.map stepLint, .str "wait"] pipelineEnvRegion (by
      intro m hm
      simp only [List.mem_cons, Value.map.injEq, List.mem_singleton, List.not_mem_nil,
        or_false, reduceCtorEq] at hm
      subst hm
      rfl)
  obtain ⟨o, ho, hsame, -⟩ := h3 1 (.str "wait") rfl
  exact ⟨out, h1, h2, by rw [ho, hsame (fun m h => by cases h)]⟩

/-! ## The output as a concatenation -/

theorem length_flatten_parts (penv : StrMap) (projects : List Project) (steps : List Value)
    (parts : List (List Value)) (hlen : parts.length = steps.length)
    (h : ∀ (i : Nat) (step : Value) (part : List Value), steps[i]? = some step →
      parts[i]? = some part →
      part.length = if expands penv step then matchCount penv projects step else 1) :
    parts.flatten.length =
      (steps.filter (fun s => !expands penv s)).length +
        ((steps.filter (expands penv)).map (matchCount penv projects)).sum := by
  induction steps generalizing parts with
  | nil =>
    simp only [List.length_nil, List.length_eq_zero] at hlen
    subst hlen
    rfl
  | cons s rest ih =>
    cases parts with
    | nil => simp at hlen
    | cons part parts =>
      have h0 := h 0 s part (by simp) (by simp)
      have hrest := ih parts (by simpa using hlen)
        (fun i step pt hs hp => h (i + 1) step pt (by simpa using hs) (by simpa using hp))
      simp only [List.flatten_cons, List.length_append, hrest, h0]
      by_cases he : expands penv s = true
      · simp [List.filter_cons, he]
        omega
      · simp [List.filter_cons, he]
        omega

/-- C8: generatePipeline returns whenever all dependencies are strings and no record
step has a null or NaN map key inside, and whenever it
returns, its Steps are the concatenation, in order, of one part per input step: the merged
step alone for a step that is not expanded, and for an expanded step the result of the step
cloner on it, which lists one clone per matching project in project-list order (none when
no project matches).  So the output is as long as the number of steps that are not expanded
plus the sum over the expanded steps of the number of matching projects. -/
theorem C8_output_is_concatenation_of_parts (rt : GoRuntime) (steps : List Value)
    (penv : StrMap) (projects : List Project) :
    ((∀ m, Value.map m ∈ steps →
        dependsOnStrings m = true ∧ copyableKeys (.map m) = true) →
      ∃ p, generatePipeline rt steps penv projects = some p) ∧
    ∀ p, generatePipeline rt steps penv projects = some p →
      ∃ parts : List (List Value), p.Steps = parts.flatten ∧ parts.length = steps.length ∧
        (∀ (i : Nat) (step : Value), steps[i]? = some step →
          (expands penv step = false → parts[i]? = some [mergedStep penv step]) ∧
          (expands penv step = true →
            ∃ (m : Fields) (part : List Value), mergedStep penv step = Value.map m ∧
              parts[i]? = some part ∧
              generateProjectSteps rt (stepsAt penv steps i) (.map m) projects = some part ∧
              List.Forall₂ (fun proj c =>
                  ∃ f, projectStep rt (stepsAt penv steps i) m proj = some f ∧ c = Value.map f)
                (matchingProjects m projects) part ∧
              part.length = (matchingProjects m projects).length ∧
              (matchingProjects m projects = [] → part = []))) ∧
        p.Steps.length =
          (steps.filter (fun s => !expands penv s)).length +
            ((steps.filter (expands penv)).map (matchCount penv projects)).sum := by
  constructor
  · intro hdeps
    obtain ⟨out, hout⟩ := generatePipeline_isSome rt steps penv projects hdeps
    exact ⟨_, hout⟩
  · rintro ⟨out⟩ hout
    obtain ⟨parts, hparts, hflat⟩ :=
      (generatePipeline_eq_some_iff rt steps penv projects out).mp hout
    have hexp : ∀ (i : Nat) (step : Value), steps[i]? = some step → expands penv step = true →
        ∃ (m : Fields) (part : List Value), mergedStep penv step = Value.map m ∧
          parts[i]? = some part ∧
          generateProjectSteps rt (stepsAt penv steps i) (.map m) projects = some part ∧
          List.Forall₂ (fun proj c =>
              ∃ f, projectStep rt (stepsAt penv steps i) m proj = some f ∧ c = Value.map f)
            (matchingProjects m projects) part := by
      intro i step hi he
      obtain ⟨m, env, rfl, -, -⟩ := expands_env penv step he
      obtain ⟨part, hpart, hcall⟩ :=
        pipelineParts_expanded_call rt steps penv projects parts hparts i m hi he
      exact ⟨_, part, rfl, hpart, hcall,
        generateProjectSteps_forall₂ rt _ _ projects part hcall⟩
    refine ⟨parts, hflat, hparts.1, ?_, ?_⟩
    · intro i step hi
      refine ⟨pipelineParts_passthrough rt steps penv projects parts hparts i step hi, ?_⟩
      intro he
      obtain ⟨m, part, hm, hpart, hgen, hall⟩ := hexp i step hi he
      refine ⟨m, part, hm, hpart, hgen, hall, hall.length_eq.symm, ?_⟩
      intro hnil
      rw [hnil] at hall
      cases hall
      rfl
    · show out.length = _
      rw [hflat]
      apply length_flatten_parts penv projects steps parts hparts.1
      intro i step part hi hpart
      by_cases he : expands penv step = true
      · obtain ⟨m, part2, hm, hpart2, -, hall⟩ := hexp i step hi he
        rw [hpart] at hpart2
        cases hpart2
        rw [if_pos he, ← hall.length_eq]
        simp [matchCount, hm]
      · have he2 : expands penv step = false := by simpa using he
        have := pipelineParts_passthrough rt steps penv projects parts hparts i step hi he2
        rw [hpart] at this
        cases this
        simp [he2]

/-- C8 at the steps `Lint`, `Build` and `Test` and the projects `Svc` and `web`: the
output has three steps, and with the project `web` alone it has one. -/
theorem C8_output_concatenation_witness :
    (∃ p, generatePipeline asciiRuntime [.map stepLint, .map stepBuild, .map stepTest]
        noPipelineEnv [projectSvc, projectWeb] = some p ∧ p.Steps.length = 1 + (1 + 1)) ∧
    ∃ p, generatePipeline asciiRuntime [.map stepLint, .map stepBuild, .map stepTest]
        noPipelineEnv [projectWeb] = some p ∧ p.Steps.length = 1 + (0 + 0) := by
  have hdeps : ∀ m, Value.map m ∈ [Value.map stepLint, .map stepBuild, .map stepTest] →
      dependsOnStrings m = true ∧ copyableKeys (.map m) = true := by
    intro m hm
    simp only [List.mem_cons, Value.map.injEq, List.mem_singleton, List.not_mem_nil,
      or_false] at hm
    rcases hm with rfl | rfl | rfl <;> exact ⟨rfl, rfl⟩
  constructor
  · obtain ⟨p, hp⟩ := (C8_output_is_concatenation_of_parts asciiRuntime
      [.map stepLint, .map stepBuild, .map stepTest] noPipelineEnv [projectSvc, projectWeb]).1
      hdeps
    obtain ⟨parts, -, -, -, hlen⟩ := (C8_output_is_concatenation_of_parts asciiRuntime
      [.map stepLint, .map stepBuild, .map stepTest] noPipelineEnv [projectSvc, projectWeb]).2
      p hp
    exact ⟨p, hp, hlen⟩
  · obtain ⟨p, hp⟩ := (C8_output_is_concatenation_of_parts asciiRuntime
      [.map stepLint, .map stepBuild, .map stepTest] noPipelineEnv [projectWeb]).1 hdeps
    obtain ⟨parts, -, -, -, hlen⟩ := (C8_output_is_concatenation_of_parts asciiRuntime
      [.map stepLint, .map stepBuild, .map stepTest] noPipelineEnv [projectWeb]).2 p hp
    exact ⟨p, hp, hlen⟩

/-! ## Replacement of the project label -/

theorem replaceScan_skip (old new : List Char) (xs rest : List Char) :
    replaceScan old new xs.length (xs ++ rest) = replaceScan old new 0 rest := by
  induction xs with
  | nil => rfl
  | cons x xs ih => simp only [List.length_cons, List.cons_append, replaceScan, List.append_eq, ih]

/-- A match of `old` at the head is replaced by `new`. -/
theorem replaceScan_match (c : Char) (old new rest : List Char) :
    replaceScan (c :: old) new 0 (c :: old ++ rest) = new ++ replaceScan (c :: old) new 0 rest := by
  have hp : (c :: old).isPrefixOf (c :: (old ++ rest)) = true :=
    List.isPrefixOf_iff_prefix.mpr ⟨rest, rfl⟩
  simp only [List.cons_append, replaceScan, List.append_eq, hp, if_true, List.length_cons,
    Nat.add_sub_cancel]
  rw [replaceScan_skip]

/-- Characters other than the first character of `old` are copied. -/
theorem replaceScan_segment (c : Char) (old new seg rest : List Char) (h : c ∉ seg) :
    replaceScan (c :: old) new 0 (seg ++ rest) = seg ++ replaceScan (c :: old) new 0 rest := by
  induction seg with
  | nil => rfl
  | cons x xs ih =>
    simp only [List.mem_cons, not_or] at h
    have hx : (c == x) = false := by
      simp only [beq_eq_false_iff_ne, ne_eq]
      exact h.1
    simp only [List.cons_append, replaceScan, List.isPrefixOf, hx, Bool.false_and,
      Bool.false_eq_true, if_false, List.append_eq, ih h.2]

/-- A character at which `old` does not match is copied. -/
theorem replaceScan_copy (old new : List Char) (x : Char) (xs : List Char)
    (h : old.isPrefixOf (x :: xs) = false) :
    replaceScan old new 0 (x :: xs) = x :: replaceScan old new 0 xs := by
  simp only [replaceScan, h, Bool.false_eq_true, if_false]

theorem replaceScan_segment_of_eq (pat old new seg rest : List Char) (c : Char)
    (hpat : pat = c :: old) (h : c ∉ seg) :
    replaceScan pat new 0 (seg ++ rest) = seg ++ replaceScan pat new 0 rest := by
  subst hpat
  exact replaceScan_segment c old new seg rest h

theorem replaceScan_match_of_eq (pat old new rest : List Char) (c : Char)
    (hpat : pat = c :: old) :
    replaceScan pat new 0 (pat ++ rest) = new ++ replaceScan pat new 0 rest := by
  subst hpat
  exact replaceScan_match c old new rest

/-- One replacement pass over one form and the segment after it. -/
theorem replaceScan_head (g f : LabelForm) (l : String) (hl : '$' ∉ l.data) (s : List Char)
    (hs : '$' ∉ s) (tail : List Char) :
    replaceScan g.text.data l.data 0 ((pieceAfter (g.rank - 1) l f).data ++ (s ++ tail)) =
      (pieceAfter g.rank l f).data ++ (s ++ replaceScan g.text.data l.data 0 tail) := by
  have hseg : ∀ (pat old : List Char), pat = '$' :: old →
      replaceScan pat l.data 0 (l.data ++ (s ++ tail)) =
        l.data ++ (s ++ replaceScan pat l.data 0 tail) := by
    intro pat old hpat
    rw [← List.append_assoc, replaceScan_segment_of_eq pat old l.data (l.data ++ s) tail '$' hpat
      (by simp [hl, hs]), List.append_assoc]
  have hmatch : ∀ (pat old : List Char), pat = '$' :: old →
      replaceScan pat l.data 0 (pat ++ (s ++ tail)) =
        l.data ++ (s ++ replaceScan pat l.data 0 tail) := by
    intro pat old hpat
    rw [replaceScan_match_of_eq pat old l.data _ '$' hpat,
      replaceScan_segment_of_eq pat old l.data s tail '$' hpat hs]
  have hone : ∀ (pat old seg : List Char), pat = '$' :: old → '$' ∉ seg →
      pat.isPrefixOf ('$' :: (seg ++ (s ++ tail))) = false →
      replaceScan pat l.data 0 ('$' :: seg ++ (s ++ tail)) =
        ('$' :: seg) ++ (s ++ replaceScan pat l.data 0 tail) := by
    intro pat old seg hpat hseg2 hp
    rw [List.cons_append, replaceScan_copy pat l.data '$' _ hp,
      replaceScan_segment_of_eq pat old l.data seg _ '$' hpat hseg2,
      replaceScan_segment_of_eq pat old l.data s tail '$' hpat hs]
    rfl
  have htwo : ∀ (pat old seg : List Char), pat = '$' :: old → '$' ∉ seg →
      pat.isPrefixOf ('$' :: '$' :: (seg ++ (s ++ tail))) = false →
      pat.isPrefixOf ('$' :: (seg ++ (s ++ tail))) = false →
      replaceScan pat l.data 0 ('$' :: '$' :: seg ++ (s ++ tail)) =
        ('$' :: '$' :: seg) ++ (s ++ replaceScan pat l.data 0 tail) := by
    intro pat old seg hpat hseg2 hp1 hp2
    rw [List.cons_append, List.cons_append, replaceScan_copy pat l.data '$' _ hp1,
      replaceScan_copy pat l.data '$' _ hp2,
      replaceScan_segment_of_eq pat old l.data seg _ '$' hpat hseg2,
      replaceScan_segment_of_eq pat old l.data s tail '$' hpat hs]
    rfl
  cases g <;> cases f
  · exact hmatch _ _ rfl
  · exact hone _ _ "\x7bBUILDPIPE_PROJECT_LABEL\x7d".data rfl (by decide) rfl
  · exact htwo _ _ "BUILDPIPE_PROJECT_LABEL".data rfl (by decide) rfl rfl
  · exact hone _ _ "BUILDPIPE_PROJECT_LABEL".data rfl (by decide) rfl
  · exact hseg _ _ rfl
  · exact hmatch _ _ rfl
  · exact htwo _ _ "BUILDPIPE_PROJECT_LABEL".data rfl (by decide) rfl rfl
  · exact hone _ _ "BUILDPIPE_PROJECT_LABEL".data rfl (by decide) rfl
  · exact hseg _ _ rfl
  · exact hseg _ _ rfl
  · exact hmatch _ _ rfl
  · exact hone _ _ "BUILDPIPE_PROJECT_LABEL".data rfl (by decide) rfl
  · exact hseg _ _ rfl
  · exact hseg _ _ rfl
  · exact hseg _ _ rfl
  · exact hmatch _ _ rfl

theorem interleave_data (piece : LabelForm → String) (s0 : String)
    (rest : List (LabelForm × String)) :
    (interleave piece s0 rest).data =
      s0.data ++ rest.flatMap (fun fs => (piece fs.1).data ++ fs.2.data) := by
  induction rest generalizing s0 with
  | nil => simp [interleave]
  | cons fs rest ih =>
    obtain ⟨f, s⟩ := fs
    simp [interleave, String.data_append, ih, List.append_assoc]

/-- One call of `ReplaceAll` in `stringReplaceProjectLabel` turns the form of its turn
into the label and leaves the rest of the string as it is. -/
theorem ReplaceAll_interleave (g : LabelForm) (l : String) (hl : '$' ∉ l.data) (s0 : String)
    (rest : List (LabelForm × String)) (h0 : '$' ∉ s0.data)
    (hrest : ∀ fs ∈ rest, '$' ∉ fs.2.data) :
    ReplaceAll (interleave (pieceAfter (g.rank - 1) l) s0 rest) g.text l =
      interleave (pieceAfter g.rank l) s0 rest := by
  have hne : ¬ g.text.data = [] := by
    cases g <;> decide
  have hpat : ∃ old, g.text.data = '$' :: old := by
    cases g <;> exact ⟨_, rfl⟩
  obtain ⟨old, hold⟩ := hpat
  unfold ReplaceAll
  rw [if_neg hne]
  apply String.ext
  simp only [interleave_data]
  rw [replaceScan_segment_of_eq _ old _ _ _ '$' hold h0]
  congr 1
  induction rest with
  | nil => rfl
  | cons fs rest ih =>
    simp only [List.flatMap_cons, List.append_assoc]
    rw [replaceScan_head g fs.1 l hl fs.2.data (hrest fs (List.mem_cons_self _ _)),
      ih (fun x hx => hrest x (List.mem_cons_of_mem _ hx))]

theorem char_toLower_ne_dollar (c : Char) (hc : c ≠ '$') : c.toLower ≠ '$' := by
  intro h
  unfold Char.toLower at h
  simp only at h
  split at h
  · rename_i hr
    obtain ⟨h1, h2⟩ := hr
    generalize c.toNat = n at h h1 h2
    have h1' : 65 ≤ n := h1
    interval_cases n <;> exact absurd h (by decide)
  · exact hc h

theorem ToLower_no_dollar (rt : GoRuntime)
    (htable : ∀ c : Char, ¬ c.val < 128 → rt.lowerTable c ≠ '$')
    (s : String) (hs : '$' ∉ s.data) : '$' ∉ (ToLower rt s).data := by
  unfold ToLower
  simp only [List.mem_map, not_exists, not_and]
  intro c hc
  have hne : c ≠ '$' := fun e => hs (e ▸ hc)
  unfold toLowerRune
  split
  · exact char_toLower_ne_dollar c hne
  · rename_i hbig
    exact htable c hbig

theorem pieceAfter_zero (l : String) : pieceAfter 0 l = LabelForm.text := by
  funext f
  cases f <;> rfl

theorem pieceAfter_four (l : String) : pieceAfter 4 l = fun _ => l := by
  funext f
  cases f <;> rfl

/-- C9: for a string assembled as `s0 f1 s1 ... fn sn` with no '$' in any segment and
each `fi` one of the four forms of the label reference, and a project Label with no '$'
(for a runtime whose lower-case table maps no rune above ASCII to '$'), stringReplaceProjectLabel
returns `s0 l s1 ... l sn` with `l` the lower-cased Label, a string without any '$'.  In
particular `check-$$\x7bBUILDPIPE_PROJECT_LABEL\x7d-$\x7bBUILDPIPE_PROJECT_LABEL\x7d` with
the Label `Svc` gives `check-svc-svc`. -/
theorem C9_label_forms_replaced (rt : GoRuntime) (s0 : String)
    (rest : List (LabelForm × String)) (p : Project)
    (htable : ∀ c : Char, ¬ c.val < 128 → rt.lowerTable c ≠ '$')
    (h0 : '$' ∉ s0.data) (hrest : ∀ fs ∈ rest, '$' ∉ fs.2.data)
    (hlabel : '$' ∉ p.Label.data) :
    stringReplaceProjectLabel rt (interleave LabelForm.text s0 rest) p
      = interleave (fun _ => ToLower rt p.Label) s0 rest ∧
    '$' ∉ (stringReplaceProjectLabel rt (interleave LabelForm.text s0 rest) p).data ∧
    stringReplaceProjectLabel rt
      "check-$$\x7bBUILDPIPE_PROJECT_LABEL\x7d-$\x7bBUILDPIPE_PROJECT_LABEL\x7d" projectSvc
      = "check-svc-svc" := by
  have hl := ToLower_no_dollar rt htable p.Label hlabel
  have h1 := ReplaceAll_interleave .escapedBraces (ToLower rt p.Label) hl s0 rest h0 hrest
  have h2 := ReplaceAll_interleave .braces (ToLower rt p.Label) hl s0 rest h0 hrest
  have h3 := ReplaceAll_interleave .escaped (ToLower rt p.Label) hl s0 rest h0 hrest
  have h4 := ReplaceAll_interleave .bare (ToLower rt p.Label) hl s0 rest h0 hrest
  simp only [LabelForm.rank, Nat.sub_self, Nat.reduceSub, pieceAfter_zero, pieceAfter_four]
    at h1 h2 h3 h4
  have hres : stringReplaceProjectLabel rt (interleave LabelForm.text s0 rest) p
      = interleave (fun _ => ToLower rt p.Label) s0 rest := by
    unfold stringReplaceProjectLabel
    simp only
    exact (congrArg (fun x => ReplaceAll x LabelForm.bare.text (ToLower rt p.Label))
      ((congrArg (fun x => ReplaceAll x LabelForm.escaped.text (ToLower rt p.Label))
        ((congrArg (fun x => ReplaceAll x LabelForm.braces.text (ToLower rt p.Label)) h1).trans
          h2)).trans h3)).trans h4
  refine ⟨hres, ?_, rfl⟩
  rw [hres, interleave_data]
  simp only [List.mem_append, List.mem_flatMap, not_or, not_exists, not_and]
  exact ⟨h0, fun fs hfs => ⟨hl, hrest fs hfs⟩⟩

/-- C9 at the string `check-$$\x7bBUILDPIPE_PROJECT_LABEL\x7d-$BUILDPIPE_PROJECT_LABEL.tgz`
and the Label `Svc`. -/
theorem C9_label_forms_witness :
    stringReplaceProjectLabel asciiRuntime
      "check-$$\x7bBUILDPIPE_PROJECT_LABEL\x7d-$BUILDPIPE_PROJECT_LABEL.tgz" projectSvc
      = "check-svc-svc.tgz" :=
  (C9_label_forms_replaced asciiRuntime "check-"
    [(.escapedBraces, "-"), (.bare, ".tgz")] projectSvc
    (fun c hc h => hc (by
      have hcd : c = '$' := h
      rw [hcd]
      decide))
    (by decide) (by decide) (by decide)).1

/-! ## The synthetic variables of a clone -/

theorem cloneEnv_label (p : Project) (env : Fields) :
    ∃ value : String,
      mapGet? (rangeAssign p.Env
        (mapSet (mapSet env "BUILDPIPE_PROJECT_LABEL" (.str p.Label))
          "BUILDPIPE_PROJECT_PATH" (.str p.mainPath))) "BUILDPIPE_PROJECT_LABEL"
        = some (.str value) ∧
      ("BUILDPIPE_PROJECT_LABEL" ∉ p.Env.entries.map Prod.fst → value = p.Label) := by
  by_cases h : "BUILDPIPE_PROJECT_LABEL" ∈ p.Env.entries.map Prod.fst
  · obtain ⟨⟨name, value⟩, hmem, hname⟩ := List.mem_map.mp h
    simp only at hname
    subst hname
    exact ⟨value, cloneEnv_project_value p env _ value hmem, fun hn => absurd h hn⟩
  · refine ⟨p.Label, ?_, fun _ => rfl⟩
    rw [mapGet?_rangeAssign_not_mem _ _ _ h, mapGet?_mapSet_ne _ _ (by decide),
      mapGet?_mapSet_same]

theorem cloneEnv_path (p : Project) (env : Fields) :
    ∃ value : String,
      mapGet? (rangeAssign p.Env
        (mapSet (mapSet env "BUILDPIPE_PROJECT_LABEL" (.str p.Label))
          "BUILDPIPE_PROJECT_PATH" (.str p.mainPath))) "BUILDPIPE_PROJECT_PATH"
        = some (.str value) ∧
      ("BUILDPIPE_PROJECT_PATH" ∉ p.Env.entries.map Prod.fst → value = p.mainPath) := by
  by_cases h : "BUILDPIPE_PROJECT_PATH" ∈ p.Env.entries.map Prod.fst
  · obtain ⟨⟨name, value⟩, hmem, hname⟩ := List.mem_map.mp h
    simp only at hname
    subst hname
    exact ⟨value, cloneEnv_project_value p env _ value hmem, fun hn => absurd h hn⟩
  · refine ⟨p.mainPath, ?_, fun _ => rfl⟩
    rw [mapGet?_rangeAssign_not_mem _ _ _ h, mapGet?_mapSet_same]

/-- C10: generatePipeline returns whenever all dependencies are strings and no record
step has a null or NaN map key inside, and whenever it
returns, its output is the concatenation of the per-step parts, and every element of the
part of an expanded step is the clone for the matching project at the same place: a
record with an env that has string values for BUILDPIPE_PROJECT_LABEL and
BUILDPIPE_PROJECT_PATH, which are the project's Label and main path when the project's
own Env does not set those names. -/
theorem C10_clones_carry_project_label_and_path (rt : GoRuntime) (steps : List Value)
    (penv : StrMap) (projects : List Project) :
    ((∀ m, Value.map m ∈ steps →
        dependsOnStrings m = true ∧ copyableKeys (.map m) = true) →
      ∃ p, generatePipeline rt steps penv projects = some p) ∧
    ∀ out, generatePipeline rt steps penv projects = some ⟨out⟩ →
      ∃ parts, PipelineParts rt steps penv projects parts ∧ out = parts.flatten ∧
        ∀ (i k : Nat) (m : Fields) (part : List Value) (v : Value),
          steps[i]? = some (.map m) → expands penv (.map m) = true →
          parts[i]? = some part → part[k]? = some v →
          ∃ (proj : Project) (c env : Fields) (labelValue pathValue : String),
            (matchingProjects (mergePipelineEnv penv m).1 projects)[k]? = some proj ∧
            v = Value.map c ∧ mapGet? c "env" = some (.map env) ∧
            mapGet? env "BUILDPIPE_PROJECT_LABEL" = some (.str labelValue) ∧
            mapGet? env "BUILDPIPE_PROJECT_PATH" = some (.str pathValue) ∧
            ("BUILDPIPE_PROJECT_LABEL" ∉ proj.Env.entries.map Prod.fst →
              labelValue = proj.Label) ∧
            ("BUILDPIPE_PROJECT_PATH" ∉ proj.Env.entries.map Prod.fst →
              pathValue = proj.mainPath) := by
  constructor
  · intro hdeps
    obtain ⟨out, hout⟩ := generatePipeline_isSome rt steps penv projects hdeps
    exact ⟨_, hout⟩
  · intro out hout
    obtain ⟨parts, hparts, hflat⟩ :=
      (generatePipeline_eq_some_iff rt steps penv projects out).mp hout
    refine ⟨parts, hparts, hflat, ?_⟩
    intro i k m part v hi he hpart hv
    obtain ⟨part2, hpart2, hall⟩ :=
      pipelineParts_expanded rt steps penv projects parts hparts i m hi he
    rw [hpart] at hpart2
    cases hpart2
    obtain ⟨proj, hproj, f, hf, rfl⟩ := forall₂_getElem?_right hall k v hv
    obtain ⟨env, -, henv⟩ := (projectStep_fields rt _ _ f proj hf).2.1
    obtain ⟨lv, hlv, hlv2⟩ := cloneEnv_label proj env
    obtain ⟨pv, hpv, hpv2⟩ := cloneEnv_path proj env
    exact ⟨proj, f, _, lv, pv, hproj, rfl, henv, hlv, hpv, hlv2, hpv2⟩

/-- C10 at the steps `Lint` and `Build` and the project `Svc`: the clone of `Build` has
`BUILDPIPE_PROJECT_LABEL=Svc` and `BUILDPIPE_PROJECT_PATH=services/svc`. -/
theorem C10_clones_carry_witness :
    ∃ (out : List Value) (c env : Fields),
      generatePipeline asciiRuntime [.map stepLint, .map stepBuild] noPipelineEnv [projectSvc]
        = some ⟨out⟩ ∧
      out[1]? = some (Value.map c) ∧ mapGet? c "env" = some (.map env) ∧
      mapGet? env "BUILDPIPE_PROJECT_LABEL" = some (.str "Svc") ∧
      mapGet? env "BUILDPIPE_PROJECT_PATH" = some (.str "services/svc") := by
  have hout : generatePipeline asciiRuntime [.map stepLint, .map stepBuild] noPipelineEnv
      [projectSvc] = some ⟨[.map stepLint, .map stepBuildSvc]⟩ := rfl
  obtain ⟨parts, hparts, -, h⟩ := (C10_clones_carry_project_label_and_path asciiRuntime
    [.map stepLint, .map stepBuild] noPipelineEnv [projectSvc]).2 _ hout
  have hpart : parts[1]? = some [.map stepBuildSvc] := (hparts.2 1 (.map stepBuild) rfl).symm
  obtain ⟨proj, c, env, lv, pv, hproj, hv, henv, hl, hp, hl2, hp2⟩ :=
    h 1 0 stepBuild [.map stepBuildSvc] (.map stepBuildSvc) rfl rfl hpart rfl
  have hsvc : proj = projectSvc := by
    have : (matchingProjects (mergePipelineEnv noPipelineEnv stepBuild).1 [projectSvc])[0]?
        = some projectSvc := rfl
    rw [this] at hproj
    exact (Option.some.inj hproj).symm
  subst hsvc
  rw [hl2 (by decide)] at hl
  rw [hp2 (by decide)] at hp
  exact ⟨_, c, env, hout, by rw [← hv]; rfl, henv, hl, hp⟩

/-! ## Mis-shaped dependencies and missing env -/

/-- C11: the code does not do what the claim says.  A project-scoped step whose
depends_on lists a record (`- step: build`), or is a number, makes `dependency.(string)`
panic for the first matching project: generateProjectSteps returns nothing, and so does
generatePipeline on a pipeline that has such a step. -/
theorem C11_non_string_dependency_panics :
    generateProjectSteps asciiRuntime [.map stepBuild, .map stepTestRecordDependency]
      (.map stepTestRecordDependency) [projectSvc] = none ∧
    generateProjectSteps asciiRuntime [.map stepBuild, .map stepTestNumberDependency]
      (.map stepTestNumberDependency) [projectSvc] = none ∧
    generatePipeline asciiRuntime [.map stepBuild, .map stepTestRecordDependency]
      noPipelineEnv [projectSvc] = none :=
  ⟨rfl, rfl, rfl⟩

/-- C12 (as stated) fails: the record `stepNoEnv` has no env mapping and the project
`Svc` accepts it, and generateProjectSteps panics at `stepCopyMap["env"].(...)` instead of
creating the env. -/
theorem C12_counterexample_no_env_panics :
    mapGet? stepNoEnv "env" = none ∧
    projectSvc.checkProjectRules stepNoEnv = true ∧
    generateProjectSteps asciiRuntime [.map stepNoEnv] (.map stepNoEnv) [projectSvc] = none :=
  ⟨rfl, rfl, rfl⟩

/-- C12 (amended): generateProjectSteps does not create the env; generatePipeline does,
before it calls it: every record that generatePipeline expands has an env mapping after
the merge.  For a step record that has an env mapping (and string dependencies, and no
null or NaN map key anywhere inside it), generateProjectSteps returns one clone per
matching project, and the clone's env has BUILDPIPE_PROJECT_LABEL, BUILDPIPE_PROJECT_PATH
and every entry of the project's Env. -/
theorem C12_clone_env_given_env (rt : GoRuntime) (allSteps : List Value)
    (step env : Fields) (projects : List Project)
    (henv : mapGet? step "env" = some (.map env))
    (hdeps : dependsOnStrings step = true)
    (hcopy : copyableKeys (.map step) = true) :
    (∃ out, generateProjectSteps rt allSteps (.map step) projects = some out ∧
      out.length = (matchingProjects step projects).length ∧
      ∀ (i : Nat) (p : Project), (matchingProjects step projects)[i]? = some p →
        ∃ (c cenv : Fields), out[i]? = some (Value.map c) ∧
          mapGet? c "env" = some (.map cenv) ∧
          (mapGet? cenv "BUILDPIPE_PROJECT_LABEL").isSome = true ∧
          (mapGet? cenv "BUILDPIPE_PROJECT_PATH").isSome = true ∧
          ∀ (name value : String), (name, value) ∈ p.Env.entries →
            mapGet? cenv name = some (.str value)) ∧
    ∀ (penv : StrMap) (m : Fields), expands penv (.map m) = true →
      ∃ e, mapGet? (mergePipelineEnv penv m).1 "env" = some (.map e) := by
  constructor
  · obtain ⟨out, hout⟩ :=
      generateProjectSteps_isSome rt allSteps step env projects henv hdeps hcopy
    have hall := generateProjectSteps_forall₂ rt allSteps step projects out hout
    refine ⟨out, hout, hall.length_eq.symm, ?_⟩
    intro i p hp
    obtain ⟨c, hc, f, hf, rfl⟩ := forall₂_getElem? hall i p hp
    obtain ⟨e, -, hcenv⟩ := (projectStep_fields rt allSteps step f p hf).2.1
    obtain ⟨lv, hlv, -⟩ := cloneEnv_label p e
    obtain ⟨pv, hpv, -⟩ := cloneEnv_path p e
    refine ⟨f, _, hc, hcenv, by rw [hlv]; rfl, by rw [hpv]; rfl, ?_⟩
    intro name value hmem
    exact cloneEnv_project_value p e name value hmem
  · intro penv m he
    obtain ⟨m2, e, hm, -, henv2⟩ := expands_env penv (.map m) he
    cases hm
    exact ⟨e, henv2⟩

/-- C12 (amended) at the step `Build` and the project `Svc` with `TIER=backend`. -/
theorem C12_clone_env_witness :
    ∃ (out : List Value) (c cenv : Fields),
      generateProjectSteps asciiRuntime [] (.map stepBuild) [projectSvc] = some out ∧
      out[0]? = some (Value.map c) ∧ mapGet? c "env" = some (.map cenv) ∧
      mapGet? cenv "TIER" = some (.str "backend") := by
  obtain ⟨out, hout, -, h⟩ := (C12_clone_env_given_env asciiRuntime [] stepBuild
    [(.str "BUILDPIPE_SCOPE", .str "project")] [projectSvc] rfl rfl rfl).1
  obtain ⟨c, cenv, hc, henv, -, -, hall⟩ := h 0 projectSvc rfl
  exact ⟨out, c, cenv, hout, hc, henv, hall "TIER" "backend" (by decide)⟩

/-- C13: generatePipeline returns whenever all dependencies are strings and no record
step has a null or NaN map key inside, and whenever it
returns, its output is the concatenation of the per-step parts, where the part of a step
that is not a record is that step alone, unchanged, and the part of a record with a
string-valued `block` field that is not project-scoped is that record alone, unchanged
(so with no env created and nothing of pipelineEnv merged into it). -/
theorem C13_markers_and_block_steps_unchanged (rt : GoRuntime) (steps : List Value)
    (penv : StrMap) (projects : List Project) :
    ((∀ m, Value.map m ∈ steps →
        dependsOnStrings m = true ∧ copyableKeys (.map m) = true) →
      ∃ p, generatePipeline rt steps penv projects = some p) ∧
    ∀ out, generatePipeline rt steps penv projects = some ⟨out⟩ →
      ∃ parts, PipelineParts rt steps penv projects parts ∧ out = parts.flatten ∧
        ∀ (i : Nat) (step : Value), steps[i]? = some step →
          ((∀ m, step ≠ Value.map m) → parts[i]? = some [step]) ∧
          ∀ (m : Fields) (text : String), step = Value.map m →
            mapGet? m "block" = some (.str text) → isProjectScopeStep m = false →
            parts[i]? = some [Value.map m] := by
  constructor
  · intro hdeps
    obtain ⟨out, hout⟩ := generatePipeline_isSome rt steps penv projects hdeps
    exact ⟨_, hout⟩
  · intro out hout
    obtain ⟨parts, hparts, hflat⟩ :=
      (generatePipeline_eq_some_iff rt steps penv projects out).mp hout
    refine ⟨parts, hparts, hflat, ?_⟩
    intro i step hi
    constructor
    · intro hnot
      have he : expands penv step = false := by
        cases step with
        | map m => exact absurd rfl (hnot m)
        | _ => rfl
      have hm : mergedStep penv step = step := by
        cases step with
        | map m => exact absurd rfl (hnot m)
        | _ => rfl
      have := pipelineParts_passthrough rt steps penv projects parts hparts i step hi he
      rw [hm] at this
      exact this
    · rintro m text rfl hblock hscope
      have hb : foundBlockStep m = true := by
        simp [foundBlockStep, hblock]
      have hmerge : mergePipelineEnv penv m = (m, stepEnv m) := by
        simp [mergePipelineEnv, hb]
      have he : expands penv (.map m) = false := by
        rw [expands_eq_isProjectScopeStep, hmerge]
        exact hscope
      have := pipelineParts_passthrough rt steps penv projects parts hparts i _ hi he
      simp only [mergedStep, hmerge] at this
      exact this

/-- C13 at a `wait` marker and a block step under a pipeline env that sets `REGION` and
`TIER`: both come out as they went in. -/
theorem C13_markers_and_block_steps_witness :
    generatePipeline asciiRuntime [.str "wait", .map stepBlock] pipelineEnvRegion [projectSvc]
      = some ⟨[.str "wait", .map stepBlock]⟩ ∧
    ∃ parts : List (List Value), parts[0]? = some [Value.str "wait"] ∧
      parts[1]? = some [Value.map stepBlock] := by
  refine ⟨rfl, ?_⟩
  obtain ⟨parts, -, -, h⟩ := (C13_markers_and_block_steps_unchanged asciiRuntime
    [.str "wait", .map stepBlock] pipelineEnvRegion [projectSvc]).2
    [.str "wait", .map stepBlock] rfl
  exact ⟨parts, (h 0 (.str "wait") rfl).1 (fun m hm => by cases hm),
    (h 1 (.map stepBlock) rfl).2 stepBlock "Release?" rfl rfl rfl⟩

/-- The step cloner on a project list put together from two. -/
theorem generateProjectSteps_append (rt : GoRuntime) (allSteps : List Value) (step : Value)
    (ps qs : List Project) :
    generateProjectSteps rt allSteps step (ps ++ qs) =
      match generateProjectSteps rt allSteps step ps,
        generateProjectSteps rt allSteps step qs with
      | some a, some b => some (a ++ b)
      | _, _ => none := by
  induction ps with
  | nil =>
    simp only [List.nil_append, generateProjectSteps]
    cases generateProjectSteps rt allSteps step qs <;> rfl
  | cons p rest ih =>
    by_cases hcopy : copyableKeys step = true
    · have hd := deepcopy_of_copyableKeys _ hcopy
      cases step with
      | map m =>
        simp only [List.cons_append, generateProjectSteps, hd, List.append_eq]
        by_cases hp : p.checkProjectRules m = true
        · simp only [hp, if_true]
          cases hs : projectStep rt allSteps m p with
          | none => simp
          | some f =>
            rw [ih]
            cases generateProjectSteps rt allSteps (.map m) rest <;>
              cases generateProjectSteps rt allSteps (.map m) qs <;> simp
        · simp only [hp, Bool.false_eq_true, if_false]
          exact ih
      | _ => simp [generateProjectSteps, hd]
    · have hd := deepcopy_of_not_copyableKeys _ ((Bool.not_eq_true _).mp hcopy)
      simp [generateProjectSteps, hd]

/-- C14: generateProjectSteps distributes over the concatenation of project lists: on
`ps ++ qs` it panics when it panics on `ps` or on `qs`, and otherwise returns the result
for `ps` followed by the result for `qs`.  And the clone at the place of a matching
project is the clone that generateProjectSteps returns for that project alone, whatever
the other projects of the list. -/
theorem C14_cloner_distributes_over_project_lists (rt : GoRuntime) (allSteps : List Value)
    (step : Value) (ps qs : List Project) :
    (generateProjectSteps rt allSteps step (ps ++ qs) =
      match generateProjectSteps rt allSteps step ps,
        generateProjectSteps rt allSteps step qs with
      | some a, some b => some (a ++ b)
      | _, _ => none) ∧
    (∀ a b, generateProjectSteps rt allSteps step ps = some a →
      generateProjectSteps rt allSteps step qs = some b →
      generateProjectSteps rt allSteps step (ps ++ qs) = some (a ++ b)) ∧
    ∀ (m : Fields) (out : List Value), step = Value.map m →
      generateProjectSteps rt allSteps step ps = some out →
      out.length = (matchingProjects m ps).length ∧
      ∀ (i : Nat) (p : Project), (matchingProjects m ps)[i]? = some p →
        ∃ c, out[i]? = some c ∧ generateProjectSteps rt allSteps step [p] = some [c] := by
  refine ⟨generateProjectSteps_append rt allSteps step ps qs, ?_, ?_⟩
  · intro a b ha hb
    rw [generateProjectSteps_append, ha, hb]
  · rintro m out rfl hout
    have hall := generateProjectSteps_forall₂ rt allSteps m ps out hout
    refine ⟨hall.length_eq.symm, ?_⟩
    intro i p hp
    obtain ⟨c, hc, f, hf, rfl⟩ := forall₂_getElem? hall i p hp
    refine ⟨_, hc, ?_⟩
    have hmem : p ∈ matchingProjects m ps := List.getElem?_mem hp
    have hcheck : p.checkProjectRules m = true := by
      simpa using (List.mem_filter.mp hmem).2
    have hcopy : copyableKeys (.map m) = true := by
      cases ps with
      | nil => simp [matchingProjects] at hmem
      | cons q rest =>
        apply (Bool.not_eq_false _).mp
        intro hfalse
        rw [generateProjectSteps_of_not_copyableKeys rt allSteps _ q rest hfalse] at hout
        cases hout
    simp [generateProjectSteps, deepcopy_of_copyableKeys _ hcopy, hcheck, hf]

/-- C14 at the step `Build` and the project lists `[Svc, web]` and `[svc]`. -/
theorem C14_cloner_distributes_witness :
    generateProjectSteps asciiRuntime [] (.map stepBuild)
        ([projectSvc, projectWeb] ++ [projectLowerSvc])
      = some ([.map stepBuildSvc] ++ [.map stepBuildLowerSvc]) :=
  (C14_cloner_distributes_over_project_lists asciiRuntime [] (.map stepBuild)
    [projectSvc, projectWeb] [projectLowerSvc]).2.1 [.map stepBuildSvc]
    [.map stepBuildLowerSvc] rfl rfl

/-! ## Occurrences of the label reference in the result -/

/-- A prefix of the scan result that avoids the first character of `new` is a prefix of
the scanned string. -/
theorem prefix_of_prefix_replaceScan (old : List Char) (x : Char) (lt : List Char)
    (qt s : List Char) (hx : x ∉ qt) (h : qt <+: replaceScan old (x :: lt) 0 s) : qt <+: s := by
  induction qt generalizing s with
  | nil => exact List.nil_prefix
  | cons q qt ih =>
    simp only [List.mem_cons, not_or] at hx
    cases s with
    | nil =>
      simp only [replaceScan] at h
      exact absurd (List.prefix_nil.mp h) (by simp)
    | cons c s =>
      by_cases hm : old.isPrefixOf (c :: s) = true
      · simp only [replaceScan, hm, if_true, List.cons_append] at h
        exact absurd (List.cons_prefix_cons.mp h).1.symm hx.1
      · simp only [replaceScan, hm, Bool.false_eq_true, if_false] at h
        obtain ⟨hq, hrest⟩ := List.cons_prefix_cons.mp h
        rw [hq]
        exact List.cons_prefix_cons.mpr ⟨rfl, ih s hx.2 hrest⟩

/-- An occurrence that starts with `c` does not start inside a list without `c`. -/
theorem infix_of_infix_append (c : Char) (qt l t : List Char) (hl : c ∉ l)
    (h : c :: qt <:+: l ++ t) : c :: qt <:+: t := by
  induction l with
  | nil => exact h
  | cons y l ih =>
    simp only [List.mem_cons, not_or] at hl
    rcases List.infix_cons_iff.mp h with hp | hi
    · exact absurd (List.cons_prefix_cons.mp hp).1 hl.1
    · exact ih hl.2 hi

theorem infix_replaceScan_bounded (pt : List Char) (x : Char) (lt qt : List Char)
    (hl : '$' ∉ x :: lt) (hx : x ∉ qt) (n : Nat) :
    ∀ s : List Char, s.length ≤ n →
      '$' :: qt <:+: replaceScan ('$' :: pt) (x :: lt) 0 s →
      ∃ a b, s = a ++ ('$' :: qt ++ b) ∧ ('$' :: pt).isPrefixOf ('$' :: qt ++ b) = false := by
  induction n with
  | zero =>
    intro s hs h
    have hnil : s = [] := List.length_eq_zero.mp (Nat.le_zero.mp hs)
    subst hnil
    simp only [replaceScan] at h
    exact absurd (List.eq_nil_of_infix_nil h) (by simp)
  | succ n ih =>
    intro s hs h
    cases s with
    | nil =>
      simp only [replaceScan] at h
      exact absurd (List.eq_nil_of_infix_nil h) (by simp)
    | cons c s =>
      simp only [List.length_cons, Nat.add_le_add_iff_right] at hs
      by_cases hm : ('$' :: pt).isPrefixOf (c :: s) = true
      · obtain ⟨rest, hrest⟩ := List.isPrefixOf_iff_prefix.mp hm
        rw [← hrest, replaceScan_match] at h
        have h2 := infix_of_infix_append '$' qt _ _ hl h
        have hlen : rest.length ≤ n := by
          have h3 := congrArg List.length hrest
          simp only [List.length_append, List.length_cons] at h3
          omega
        obtain ⟨a, b, hab, hpre⟩ := ih rest hlen h2
        refine ⟨('$' :: pt) ++ a, b, ?_, hpre⟩
        rw [← hrest, hab, List.append_assoc]
      · have hm2 : ('$' :: pt).isPrefixOf (c :: s) = false := (Bool.not_eq_true _).mp hm
        rw [replaceScan_copy _ _ _ _ hm2] at h
        rcases List.infix_cons_iff.mp h with hp | hi
        · obtain ⟨hc, hrest⟩ := List.cons_prefix_cons.mp hp
          obtain ⟨b, hb⟩ := prefix_of_prefix_replaceScan _ x lt qt s hx hrest
          subst hc
          refine ⟨[], b, ?_, ?_⟩
          · rw [← hb]
            rfl
          · rw [List.cons_append, hb]
            exact hm2
        · obtain ⟨a, b, hab, hpre⟩ := ih s hs hi
          exact ⟨c :: a, b, by rw [hab]; rfl, hpre⟩

/-- An occurrence in the scan result of a string that starts with '$' and avoids the
first character of `new` comes from an occurrence in the scanned string, at a place
where `old` does not match. -/
theorem infix_replaceScan (pt : List Char) (x : Char) (lt qt : List Char)
    (hl : '$' ∉ x :: lt) (hx : x ∉ qt) (s : List Char)
    (h : '$' :: qt <:+: replaceScan ('$' :: pt) (x :: lt) 0 s) :
    ∃ a b, s = a ++ ('$' :: qt ++ b) ∧ ('$' :: pt).isPrefixOf ('$' :: qt ++ b) = false :=
  infix_replaceScan_bounded pt x lt qt hl hx s.length s (Nat.le_refl _) h

theorem not_infix_replaceScan_self (pt : List Char) (x : Char) (lt : List Char)
    (hl : '$' ∉ x :: lt) (hx : x ∉ pt) (s : List Char) :
    ¬ ('$' :: pt <:+: replaceScan ('$' :: pt) (x :: lt) 0 s) := by
  intro h
  obtain ⟨a, b, -, hpre⟩ := infix_replaceScan pt x lt pt hl hx s h
  have : ('$' :: pt).isPrefixOf ('$' :: pt ++ b) = true :=
    List.isPrefixOf_iff_prefix.mpr ⟨b, rfl⟩
  rw [this] at hpre
  cases hpre

theorem infix_of_infix_replaceScan (pt : List Char) (x : Char) (lt qt : List Char)
    (hl : '$' ∉ x :: lt) (hx : x ∉ qt) (s : List Char)
    (h : '$' :: qt <:+: replaceScan ('$' :: pt) (x :: lt) 0 s) : '$' :: qt <:+: s := by
  obtain ⟨a, b, hab, -⟩ := infix_replaceScan pt x lt qt hl hx s h
  exact ⟨a, b, by rw [hab]; simp⟩

theorem ReplaceAll_data (s old new : String) (h : old.data ≠ []) :
    (ReplaceAll s old new).data = replaceScan old.data new.data 0 s.data := by
  unfold ReplaceAll
  rw [if_neg h]

theorem not_occursIn_ReplaceAll_self (s old l : String) (pt : List Char) (x : Char)
    (lt : List Char) (hold : old.data = '$' :: pt) (hld : l.data = x :: lt)
    (hl : '$' ∉ l.data) (hx : x ∉ pt) : ¬ occursIn old (ReplaceAll s old l) := by
  unfold occursIn
  rw [ReplaceAll_data s old l (by rw [hold]; simp), hold, hld]
  rw [hld] at hl
  exact not_infix_replaceScan_self pt x lt hl hx s.data

theorem occursIn_of_occursIn_ReplaceAll (s old l q : String) (pt qt : List Char) (x : Char)
    (lt : List Char) (hold : old.data = '$' :: pt) (hq : q.data = '$' :: qt)
    (hld : l.data = x :: lt) (hl : '$' ∉ l.data) (hx : x ∉ qt)
    (h : occursIn q (ReplaceAll s old l)) : occursIn q s := by
  unfold occursIn at h ⊢
  rw [ReplaceAll_data s old l (by rw [hold]; simp), hold, hld, hq] at h
  rw [hld] at hl
  rw [hq]
  exact infix_of_infix_replaceScan pt x lt qt hl hx s.data h

/-- C15 (as stated) fails: with the Label `_`, the last replacement turns
`$BUILDPIPE_PROJECT$BUILDPIPE_PROJECT_LABELLABEL` into `$BUILDPIPE_PROJECT_LABEL`, which
is an occurrence of the reference made by the replacement itself. -/
theorem C15_counterexample_reference_rebuilt :
    stringReplaceProjectLabel asciiRuntime "$BUILDPIPE_PROJECT$BUILDPIPE_PROJECT_LABELLABEL"
      projectUnderscore = "$BUILDPIPE_PROJECT_LABEL" ∧
    occursIn "$BUILDPIPE_PROJECT_LABEL"
      (stringReplaceProjectLabel asciiRuntime "$BUILDPIPE_PROJECT$BUILDPIPE_PROJECT_LABELLABEL"
        projectUnderscore) := by
  have h : stringReplaceProjectLabel asciiRuntime
      "$BUILDPIPE_PROJECT$BUILDPIPE_PROJECT_LABELLABEL" projectUnderscore
      = "$BUILDPIPE_PROJECT_LABEL" := rfl
  refine ⟨h, ?_⟩
  rw [h]
  exact List.infix_refl _

/-- C15 (amended): when the lower-cased Label is not empty, has no '$' in it, and starts
with a character that does not occur in `\x7bBUILDPIPE_PROJECT_LABEL\x7d`, the result of
stringReplaceProjectLabel on any input contains no occurrence of
`$BUILDPIPE_PROJECT_LABEL` and no occurrence of `$\x7bBUILDPIPE_PROJECT_LABEL\x7d`. -/
theorem C15_no_reference_left (rt : GoRuntime) (input : String) (p : Project)
    (x : Char) (lt : List Char)
    (hlower : (ToLower rt p.Label).data = x :: lt)
    (hdollar : '$' ∉ (ToLower rt p.Label).data)
    (hfirst : x ∉ "\x7bBUILDPIPE_PROJECT_LABEL\x7d".data) :
    ¬ occursIn "$BUILDPIPE_PROJECT_LABEL" (stringReplaceProjectLabel rt input p) ∧
    ¬ occursIn "$\x7bBUILDPIPE_PROJECT_LABEL\x7d" (stringReplaceProjectLabel rt input p) := by
  have hsub : ∀ c ∈ "BUILDPIPE_PROJECT_LABEL".data, c ∈ "\x7bBUILDPIPE_PROJECT_LABEL\x7d".data := by
    decide
  have hfirst4 : x ∉ "BUILDPIPE_PROJECT_LABEL".data := fun hmem => hfirst (hsub x hmem)
  unfold stringReplaceProjectLabel
  simp only
  constructor
  · exact not_occursIn_ReplaceAll_self _ "$BUILDPIPE_PROJECT_LABEL" _
      "BUILDPIPE_PROJECT_LABEL".data x lt rfl hlower hdollar hfirst4
  · intro h4
    have h3 := occursIn_of_occursIn_ReplaceAll _ "$BUILDPIPE_PROJECT_LABEL" _
      "$\x7bBUILDPIPE_PROJECT_LABEL\x7d" "BUILDPIPE_PROJECT_LABEL".data
      "\x7bBUILDPIPE_PROJECT_LABEL\x7d".data x lt rfl rfl hlower hdollar hfirst h4
    have h2 := occursIn_of_occursIn_ReplaceAll _ "$$BUILDPIPE_PROJECT_LABEL" _
      "$\x7bBUILDPIPE_PROJECT_LABEL\x7d" "$BUILDPIPE_PROJECT_LABEL".data
      "\x7bBUILDPIPE_PROJECT_LABEL\x7d".data x lt rfl rfl hlower hdollar hfirst h3
    exact not_occursIn_ReplaceAll_self _ "$\x7bBUILDPIPE_PROJECT_LABEL\x7d" _
      "\x7bBUILDPIPE_PROJECT_LABEL\x7d".data x lt rfl hlower hdollar hfirst h2

/-- C15 (amended) at the input of the counterexample and the Label `Svc`. -/
theorem C15_no_reference_left_witness :
    ¬ occursIn "$BUILDPIPE_PROJECT_LABEL"
      (stringReplaceProjectLabel asciiRuntime "$BUILDPIPE_PROJECT$BUILDPIPE_PROJECT_LABELLABEL"
        projectSvc) ∧
    ¬ occursIn "$\x7bBUILDPIPE_PROJECT_LABEL\x7d"
      (stringReplaceProjectLabel asciiRuntime "$BUILDPIPE_PROJECT$BUILDPIPE_PROJECT_LABELLABEL"
        projectSvc) :=
  C15_no_reference_left asciiRuntime "$BUILDPIPE_PROJECT$BUILDPIPE_PROJECT_LABELLABEL"
    projectSvc 's' ['v', 'c'] rfl (by decide) (by decide)

theorem replaceScan_of_not_infix (old new s : List Char) (h : ¬ old <:+: s) :
    replaceScan old new 0 s = s := by
  induction s with
  | nil => rfl
  | cons c s ih =>
    have hm : old.isPrefixOf (c :: s) = false := by
      apply (Bool.not_eq_true _).mp
      intro hp
      exact h (List.isPrefixOf_iff_prefix.mp hp).isInfix
    rw [replaceScan_copy old new c s hm, ih (fun hi => h (List.infix_cons hi))]

theorem ReplaceAll_of_not_occursIn (s old new : String) (h : ¬ occursIn old s) :
    ReplaceAll s old new = s := by
  unfold occursIn at h
  have hne : old.data ≠ [] := by
    intro he
    rw [he] at h
    exact h (List.nil_infix)
  apply String.ext
  rw [ReplaceAll_data s old new hne, replaceScan_of_not_infix _ _ _ h]

/-- C18: an input in which neither `$BUILDPIPE_PROJECT_LABEL` nor
`$\x7bBUILDPIPE_PROJECT_LABEL\x7d` occurs is returned unchanged by
stringReplaceProjectLabel, for every project Label. -/
theorem C18_unchanged_without_reference (rt : GoRuntime) (input : String) (p : Project)
    (hbare : ¬ occursIn "$BUILDPIPE_PROJECT_LABEL" input)
    (hbraces : ¬ occursIn "$\x7bBUILDPIPE_PROJECT_LABEL\x7d" input) :
    stringReplaceProjectLabel rt input p = input := by
  have h1 : ¬ occursIn "$$\x7bBUILDPIPE_PROJECT_LABEL\x7d" input := by
    intro h
    exact hbraces (List.IsInfix.trans ⟨['$'], [], rfl⟩ h)
  have h3 : ¬ occursIn "$$BUILDPIPE_PROJECT_LABEL" input := by
    intro h
    exact hbare (List.IsInfix.trans ⟨['$'], [], rfl⟩ h)
  unfold stringReplaceProjectLabel
  simp only
  rw [ReplaceAll_of_not_occursIn input _ _ h1, ReplaceAll_of_not_occursIn input _ _ hbraces,
    ReplaceAll_of_not_occursIn input _ _ h3, ReplaceAll_of_not_occursIn input _ _ hbare]

/-- C18 at a command string with a different variable and the Label `Svc`. -/
theorem C18_unchanged_witness :
    stringReplaceProjectLabel asciiRuntime "make $TARGET" projectSvc = "make $TARGET" :=
  C18_unchanged_without_reference asciiRuntime "make $TARGET" projectSvc
    (by unfold occursIn; decide) (by unfold occursIn; decide)

/-! ## What a clone keeps of its source -/

theorem otherEntries_mapSet (names : List String) (m : Fields) (name : String) (v : Value)
    (h : name ∈ names) : otherEntries names (mapSet m name v) = otherEntries names m := by
  have hany : ∀ k : Value, keyIs name k = true →
      (names.any (fun n => keyIs n k)) = true := by
    intro k hk
    exact List.any_eq_true.mpr ⟨name, h, hk⟩
  induction m with
  | nil =>
    simp [mapSet, otherEntries, List.filter, hany (.str name) (by simp [keyIs])]
  | cons kv rest ih =>
    obtain ⟨k, w⟩ := kv
    unfold otherEntries at ih ⊢
    by_cases hk : keyIs name k = true
    · simp [mapSet, hk, List.filter_cons, hany k hk]
    · simp only [mapSet, hk, Bool.false_eq_true, if_false, List.filter_cons, ih]

theorem otherEntries_mono (names : List String) (a b : Fields) (name : String)
    (h : otherEntries [name] a = otherEntries [name] b) (hmem : name ∈ names) :
    otherEntries names a = otherEntries names b := by
  have key : ∀ m : Fields, otherEntries names m = otherEntries names (otherEntries [name] m) := by
    intro m
    unfold otherEntries
    rw [List.filter_filter]
    apply List.filter_congr
    intro kv _
    by_cases hk : keyIs name kv.1 = true
    · have : (names.any (fun n => keyIs n kv.1)) = true :=
        List.any_eq_true.mpr ⟨name, hmem, hk⟩
      simp [this, hk]
    · simp [hk]
  rw [key a, key b, h]

theorem notifyElement_rewritten (rt : GoRuntime) (p : Project) (e : Value) :
    NestedStringRewritten "github_commit_status" "context"
      (fun s => stringReplaceProjectLabel rt s p) e (notifyElement rt p e) := by
  constructor
  · rintro m1 n1 text rfl h1 h2
    refine ⟨mapSet m1 "github_commit_status" (.map (mapSet n1 "context"
      (.str (stringReplaceProjectLabel rt text p)))), mapSet n1 "context"
      (.str (stringReplaceProjectLabel rt text p)), ?_, mapGet?_mapSet_same _ _ _,
      mapGet?_mapSet_same _ _ _, fun name hne => mapGet?_mapSet_ne _ _ (Ne.symm hne),
      otherEntries_mapSet _ _ _ _ (by simp),
      fun name hne => mapGet?_mapSet_ne _ _ (Ne.symm hne),
      otherEntries_mapSet _ _ _ _ (by simp)⟩
    simp only [notifyElement, h1, h2]
  · intro hnot
    unfold notifyElement
    split
    · rename_i m1
      split
      · rename_i n1 h1
        split
        · rename_i text h2
          exact absurd ⟨m1, n1, text, rfl, h1, h2⟩ hnot
        · rfl
      · rfl
    · rfl

theorem pluginElement_rewritten (rt : GoRuntime) (p : Project) (e : Value) :
    NestedStringRewritten cachePluginKey "id"
      (fun s => stringReplaceProjectLabel rt s p) e (pluginElement rt p e) := by
  constructor
  · rintro m1 n1 text rfl h1 h2
    refine ⟨mapSet m1 cachePluginKey (.map (mapSet n1 "id"
      (.str (stringReplaceProjectLabel rt text p)))), mapSet n1 "id"
      (.str (stringReplaceProjectLabel rt text p)), ?_, mapGet?_mapSet_same _ _ _,
      mapGet?_mapSet_same _ _ _, fun name hne => mapGet?_mapSet_ne _ _ (Ne.symm hne),
      otherEntries_mapSet _ _ _ _ (by simp),
      fun name hne => mapGet?_mapSet_ne _ _ (Ne.symm hne),
      otherEntries_mapSet _ _ _ _ (by simp)⟩
    simp only [pluginElement, h1, h2]
  · intro hnot
    unfold pluginElement
    split
    · rename_i m1
      split
      · rename_i n1 h1
        split
        · rename_i text h2
          exact absurd ⟨m1, n1, text, rfl, h1, h2⟩ hnot
        · rfl
      · rfl
    · rfl

/-- The `notify` and `plugins` fields and the untouched entries of the record that
`projectStep` hands to the `depends_on` block. -/
theorem projectStep_stages_nested (rt : GoRuntime) (steps : List Value) (m env : Fields)
    (p : Project) (henv : mapGet? m "env" = some (.map env)) :
    ∃ m5 : Fields, projectStep rt steps m p = rewriteDependsOn steps p m5 ∧
      (∀ xs, mapGet? m "notify" = some (.list xs) →
        mapGet? m5 "notify" = some (.list (xs.map (notifyElement rt p)))) ∧
      ((∀ xs, mapGet? m "notify" ≠ some (.list xs)) →
        mapGet? m5 "notify" = mapGet? m "notify") ∧
      (∀ xs, mapGet? m "plugins" = some (.list xs) →
        mapGet? m5 "plugins" = some (.list (xs.map (pluginElement rt p)))) ∧
      ((∀ xs, mapGet? m "plugins" ≠ some (.list xs)) →
        mapGet? m5 "plugins" = mapGet? m "plugins") ∧
      otherEntries ["label", "key", "env", "depends_on", "notify", "plugins"] m5
        = otherEntries ["label", "key", "env", "depends_on", "notify", "plugins"] m := by
  unfold projectStep
  simp only [mapGet?_label_env, henv]
  refine ⟨_, rfl, ?_, ?_, ?_, ?_, ?_⟩
  · intro xs hxs
    split <;> split <;> split <;>
      simp_all [mapGet?_mapSet_same, mapGet?_mapSet_ne]
  · intro hxs
    split <;> split <;> split <;>
      simp_all [mapGet?_mapSet_same, mapGet?_mapSet_ne]
  · intro xs hxs
    split <;> split <;> split <;>
      simp_all [mapGet?_mapSet_same, mapGet?_mapSet_ne]
  · intro hxs
    split <;> split <;> split <;>
      simp_all [mapGet?_mapSet_same, mapGet?_mapSet_ne]
  · split <;> split <;> split <;>
      simp [otherEntries_mapSet]

theorem rewriteDependsOn_otherEntries (steps : List Value) (p : Project) (m c : Fields)
    (names : List String) (hmem : "depends_on" ∈ names)
    (h : rewriteDependsOn steps p m = some c) :
    otherEntries names c = otherEntries names m := by
  unfold rewriteDependsOn at h
  split at h
  · split at h
    · simp only [Option.some.injEq] at h
      subst h
      exact otherEntries_mapSet names _ _ _ hmem
    · cases h
  · simp only [Option.some.injEq] at h
    subst h
    rfl

theorem forall₂_map_of_forall {α : Type} (R : α → α → Prop) (f : α → α)
    (h : ∀ a, R a (f a)) (xs : List α) : List.Forall₂ R xs (xs.map f) := by
  induction xs with
  | nil => exact List.Forall₂.nil
  | cons x xs ih => exact List.Forall₂.cons (h x) ih

/-- C16: generateProjectSteps returns whenever the step record has an env mapping, string
dependencies and no null or NaN map key inside, and whenever it returns, the clone for a matching project `p` reads
as its source in every field other than label, key, env, depends_on, notify and plugins,
and has the same entries as its source outside those six.  When notify is a list, the
clone's notify is a list whose elements pair off with the source's: an element with a
string at `github_commit_status.context` has that string replaced by
stringReplaceProjectLabel of it for `p` and is otherwise as in the source, and any other
element is the source's.  When notify is not a list, it is left as it is.  The same holds
of plugins and the string at `id` under the cache plugin key. -/
theorem C16_clone_keeps_other_fields (rt : GoRuntime) (allSteps : List Value)
    (step : Fields) (projects : List Project) :
    (∀ env, mapGet? step "env" = some (.map env) → dependsOnStrings step = true →
      copyableKeys (.map step) = true →
      ∃ out, generateProjectSteps rt allSteps (.map step) projects = some out) ∧
    ∀ out, generateProjectSteps rt allSteps (.map step) projects = some out →
      ∀ (i : Nat) (p : Project), (matchingProjects step projects)[i]? = some p →
        ∃ c : Fields, out[i]? = some (Value.map c) ∧
          (∀ name : String,
            name ∉ ["label", "key", "env", "depends_on", "notify", "plugins"] →
            mapGet? c name = mapGet? step name) ∧
          otherEntries ["label", "key", "env", "depends_on", "notify", "plugins"] c
            = otherEntries ["label", "key", "env", "depends_on", "notify", "plugins"] step ∧
          (∀ xs, mapGet? step "notify" = some (.list xs) →
            ∃ ys, mapGet? c "notify" = some (.list ys) ∧
              List.Forall₂ (NestedStringRewritten "github_commit_status" "context"
                (fun s => stringReplaceProjectLabel rt s p)) xs ys) ∧
          ((∀ xs, mapGet? step "notify" ≠ some (.list xs)) →
            mapGet? c "notify" = mapGet? step "notify") ∧
          (∀ xs, mapGet? step "plugins" = some (.list xs) →
            ∃ ys, mapGet? c "plugins" = some (.list ys) ∧
              List.Forall₂ (NestedStringRewritten cachePluginKey "id"
                (fun s => stringReplaceProjectLabel rt s p)) xs ys) ∧
          ((∀ xs, mapGet? step "plugins" ≠ some (.list xs)) →
            mapGet? c "plugins" = mapGet? step "plugins") := by
  refine ⟨fun env henv hdeps hcopy =>
    generateProjectSteps_isSome rt allSteps step env projects henv hdeps hcopy, ?_⟩
  intro out hout i p hp
  have hall := generateProjectSteps_forall₂ rt allSteps step projects out hout
  obtain ⟨c, hc, f, hf, rfl⟩ := forall₂_getElem? hall i p hp
  obtain ⟨env, henv⟩ := projectStep_env_of_some rt allSteps step f p hf
  obtain ⟨m5, h5, -, -, -, -, hother⟩ := projectStep_stages rt allSteps step env p henv
  obtain ⟨m6, h6, hn1, hn2, hp1, hp2, hentries⟩ :=
    projectStep_stages_nested rt allSteps step env p henv
  have hf5 := hf
  rw [h5] at hf5
  rw [h6] at hf
  have hne5 := rewriteDependsOn_get_ne allSteps p m5 f hf5
  have hne6 := rewriteDependsOn_get_ne allSteps p m6 f hf
  refine ⟨f, hc, ?_, ?_, ?_, ?_, ?_, ?_⟩
  · intro name hname
    simp only [List.mem_cons, List.mem_singleton, List.not_mem_nil, or_false, not_or] at hname
    obtain ⟨h1, h2, h3, h4, h5', h6'⟩ := hname
    rw [hne5 name h4, hother name h1 h3 h2 h5' h6']
  · rw [rewriteDependsOn_otherEntries allSteps p m6 f _ (by simp) hf, hentries]
  · intro xs hxs
    refine ⟨xs.map (notifyElement rt p), ?_, ?_⟩
    · rw [hne6 _ (by decide), hn1 xs hxs]
    · exact forall₂_map_of_forall _ _ (notifyElement_rewritten rt p) xs
  · intro hxs
    rw [hne6 _ (by decide), hn2 hxs]
  · intro xs hxs
    refine ⟨xs.map (pluginElement rt p), ?_, ?_⟩
    · rw [hne6 _ (by decide), hp1 xs hxs]
    · exact forall₂_map_of_forall _ _ (pluginElement_rewritten rt p) xs
  · intro hxs
    rw [hne6 _ (by decide), hp2 hxs]

/-- C16 at the step `Publish` and the project `Svc`: the command of the clone still
names the variable, and the commit status context and the cache id carry the label. -/
theorem C16_clone_keeps_other_fields_witness :
    ∃ (out : List Value) (c : Fields),
      generateProjectSteps asciiRuntime [] (.map stepPublish) [projectSvc] = some out ∧
      out[0]? = some (Value.map c) ∧
      mapGet? c "command" = some (.str "make publish-$BUILDPIPE_PROJECT_LABEL") ∧
      mapGet? c "notify"
        = some (.list [.map [(.str "github_commit_status",
            .map [(.str "context", .str "ci/svc")])], .str "slack"]) ∧
      mapGet? c "plugins"
        = some (.list [.map [(.str cachePluginKey,
            .map [(.str "id", .str "cache-svc"), (.str "key", .str "v1")])]]) := by
  obtain ⟨out, hout⟩ := (C16_clone_keeps_other_fields asciiRuntime [] stepPublish
    [projectSvc]).1 [(.str "BUILDPIPE_SCOPE", .str "project")] rfl rfl rfl
  obtain ⟨c, hc, hsame, -⟩ := (C16_clone_keeps_other_fields asciiRuntime [] stepPublish
    [projectSvc]).2 out hout 0 projectSvc rfl
  have hcmd := hsame "command" (by decide)
  have hval : generateProjectSteps asciiRuntime [] (.map stepPublish) [projectSvc]
      = some [.map (mapSet (mapSet (mapSet (mapSet stepPublish "label" (.str "Publish Svc"))
        "env" (.map [(.str "BUILDPIPE_SCOPE", .str "project"),
          (.str "BUILDPIPE_PROJECT_LABEL", .str "Svc"),
          (.str "BUILDPIPE_PROJECT_PATH", .str "services/svc"),
          (.str "TIER", .str "backend")]))
        "notify" (.list [.map [(.str "github_commit_status",
            .map [(.str "context", .str "ci/svc")])], .str "slack"]))
        "plugins" (.list [.map [(.str cachePluginKey,
            .map [(.str "id", .str "cache-svc"), (.str "key", .str "v1")])]]))] := rfl
  rw [hval] at hout
  simp only [Option.some.injEq] at hout
  subst hout
  simp only [List.getElem?_cons_zero, Option.some.injEq, Value.map.injEq] at hc
  subst hc
  exact ⟨_, _, hval, rfl, hcmd, rfl, rfl⟩

/-! ## Dependencies on steps that are expanded later -/

/-- C17: the code does not do what the claim says.  Under a pipeline env that sets
BUILDPIPE_SCOPE to "project", the step `Test` depends on `build` and the step with key
`build` comes after it.  Both are expanded, the clone of the latter gets the key
`build:svc`, and the clone of `Test` keeps the dependency `build`: when `Test` is
expanded the later step has not been merged yet and is not found project-scoped.  With the
two steps in the other order the dependency becomes `build:svc`. -/
theorem C17_dependency_on_later_step_not_rewritten :
    (∃ (test build : Fields),
      generatePipeline asciiRuntime [.map stepTestPlain, .map stepNoEnv] pipelineEnvScope
        [projectLowerSvc] = some ⟨[.map test, .map build]⟩ ∧
      mapGet? test "depends_on" = some (.list [.str "build"]) ∧
      mapGet? build "key" = some (.str "build:svc")) ∧
    ∃ (build test : Fields),
      generatePipeline asciiRuntime [.map stepNoEnv, .map stepTestPlain] pipelineEnvScope
        [projectLowerSvc] = some ⟨[.map build, .map test]⟩ ∧
      mapGet? test "depends_on" = some (.list [.str "build:svc"]) ∧
      mapGet? build "key" = some (.str "build:svc") :=
  ⟨⟨_, _, rfl, rfl, rfl⟩, ⟨_, _, rfl, rfl, rfl⟩⟩

end Buildpipe
